import Mathlib

/-!
Verification of the nccheck normalization-confluence verifier.

This file gives a shallow embedding, in Lean 4, of the core of the
nccheck repository (Go): the registry data model and state codec
(registry/types.go), the expression lexer, parser and evaluator
(expr/lexer.go, expr/parser.go, expr/eval.go), and the verification
engine (package verify: Compile, BuildTables, computeNF, CheckWFC,
CheckCC) together with the command-line pipeline (main.go).

Machine integers are modelled as Int (Go int is 64-bit; no claim here
involves values anywhere near overflow).  Go maps used only through
insertion and iteration are modelled as association lists.  Fallible Go
functions returning (T, error) are modelled as Except String T; error
message strings follow the Go format strings in simplified form.
Go integer division and remainder truncate toward zero, hence Int.tdiv
and Int.tmod below.
-/

namespace NCCheck

/-! ## registry/types.go : data model -/

/-- VarType from registry/types.go. -/
inductive VarType where
  | tbool
  | tenum
  | tint
deriving DecidableEq, Repr

/-- VarDef from registry/types.go: a single typed state variable. -/
structure VarDef where
  name : String
  type : VarType
  values : List String
  min : Int
  max : Int
  size : Int
deriving DecidableEq, Repr

/-- Invariant from registry/types.go. -/
structure Invariant where
  name : String
  expr : String
deriving DecidableEq, Repr

/-- Repair from registry/types.go.  The assignments map is modelled as an
association list var name to expression string. -/
structure Repair where
  invariant : String
  assignments : List (String × String)
deriving DecidableEq, Repr

/-- Event from registry/types.go.  Guard is the empty string when absent. -/
structure Event where
  name : String
  guard : String
  assignments : List (String × String)
deriving DecidableEq, Repr

/-- Registry from registry/types.go (the Initial field is not used by the
verification core and is omitted). -/
structure Registry where
  name : String
  vars : List VarDef
  invariants : List Invariant
  compensation : List Repair
  events : List Event
deriving DecidableEq, Repr

/-- Schema from registry/types.go. -/
structure Schema where
  vars : List VarDef
  strides : List Int
  totalLen : Int
deriving DecidableEq, Repr

/-- The backwards loop of NewSchema: returns (strides, total) where
strides i is the product of the sizes after position i and total is the
product of all sizes. -/
def stridesTotal : List VarDef → List Int × Int
  | [] => ([], 1)
  | v :: vs =>
    let p := stridesTotal vs
    (p.2 :: p.1, p.2 * v.size)

/-- NewSchema from registry/types.go. -/
def NewSchema (vars : List VarDef) : Schema :=
  let p := stridesTotal vars
  { vars := vars, strides := p.1, totalLen := p.2 }

/-- The per-variable normalization used in Encode: int variables are
shifted to a 0-based value. -/
def adjustVal (v : VarDef) (x : Int) : Int :=
  if v.type = VarType.tint then x - v.min else x

/-- The loop body of Schema.Encode over the three parallel lists. -/
def encodeGo : List VarDef → List Int → List Int → Int
  | v :: vs, str :: strs, x :: xs => adjustVal v x * str + encodeGo vs strs xs
  | _, _, _ => 0

/-- Schema.Encode from registry/types.go. -/
def Schema.Encode (s : Schema) (st : List Int) : Int :=
  encodeGo s.vars s.strides st

/-- The loop body of Schema.Decode: successive truncated division and
remainder by the strides (all quantities are nonnegative in use, where
truncated division agrees with Go). -/
def decodeGo : List VarDef → List Int → Int → List Int
  | v :: vs, str :: strs, rem =>
    let q := Int.tdiv rem str
    let r := Int.tmod rem str
    (if v.type = VarType.tint then q + v.min else q) :: decodeGo vs strs r
  | _, _, _ => []

/-- Schema.Decode from registry/types.go. -/
def Schema.Decode (s : Schema) (id : Int) : List Int :=
  decodeGo s.vars s.strides id

/-- The loop of Schema.VarIndex, carrying the current index. -/
def varIndexAux : List VarDef → String → Int → Int
  | [], _, _ => -1
  | v :: vs, n, i => if v.name = n then i else varIndexAux vs n (i + 1)

/-- Schema.VarIndex from registry/types.go: index of a variable or -1. -/
def Schema.VarIndex (s : Schema) (n : String) : Int :=
  varIndexAux s.vars n 0

/-- A state component is in the variable's domain when its 0-based
encoding lies in [0, size). -/
def inDomainVar (v : VarDef) (x : Int) : Bool :=
  decide (0 ≤ adjustVal v x) && decide (adjustVal v x < v.size)

/-- A state vector is in the schema's domain componentwise (and has the
right length). -/
def inDomain : List VarDef → List Int → Bool
  | [], [] => true
  | v :: vs, x :: xs => inDomainVar v x && inDomain vs xs
  | _, _ => false

/-! ### Codec facts (groundwork for the round-trip claim) -/

theorem stridesTotal_pos (vars : List VarDef)
    (hpos : ∀ v ∈ vars, 0 < v.size) : 0 < (stridesTotal vars).2 := by
  induction vars with
  | nil => simp [stridesTotal]
  | cons v vs ih =>
    simp only [stridesTotal]
    have h1 : 0 < (stridesTotal vs).2 := ih (fun w hw => hpos w (by simp [hw]))
    have h2 : 0 < v.size := hpos v (by simp)
    exact mul_pos h1 h2

theorem inDomain_length {vars : List VarDef} {st : List Int}
    (h : inDomain vars st = true) : st.length = vars.length := by
  induction vars generalizing st with
  | nil => cases st with
    | nil => rfl
    | cons x xs => simp [inDomain] at h
  | cons v vs ih =>
    cases st with
    | nil => simp [inDomain] at h
    | cons x xs =>
      simp only [inDomain, Bool.and_eq_true] at h
      simp [ih h.2]

theorem encodeGo_bounds (vars : List VarDef) (st : List Int)
    (hpos : ∀ v ∈ vars, 0 < v.size)
    (hd : inDomain vars st = true) :
    0 ≤ encodeGo vars (stridesTotal vars).1 st ∧
      encodeGo vars (stridesTotal vars).1 st < (stridesTotal vars).2 := by
  induction vars generalizing st with
  | nil =>
    cases st with
    | nil => simp [encodeGo, stridesTotal]
    | cons x xs => simp [inDomain] at hd
  | cons v vs ih =>
    cases st with
    | nil => simp [inDomain] at hd
    | cons x xs =>
      simp only [inDomain, Bool.and_eq_true, inDomainVar,
        decide_eq_true_eq] at hd
      obtain ⟨⟨ha0, ha1⟩, hxs⟩ := hd
      have hT : 0 < (stridesTotal vs).2 :=
        stridesTotal_pos vs (fun w hw => hpos w (by simp [hw]))
      have ihx := ih xs (fun w hw => hpos w (by simp [hw])) hxs
      simp only [stridesTotal, encodeGo]
      constructor
      · have := mul_nonneg ha0 (le_of_lt hT)
        omega
      · have h1 : adjustVal v x * (stridesTotal vs).2 +
            encodeGo vs (stridesTotal vs).1 xs <
            (adjustVal v x + 1) * (stridesTotal vs).2 := by
          nlinarith [ihx.2]
        have h2 : (adjustVal v x + 1) * (stridesTotal vs).2 ≤
            v.size * (stridesTotal vs).2 := by
          have : adjustVal v x + 1 ≤ v.size := by omega
          exact mul_le_mul_of_nonneg_right this (le_of_lt hT)
        have h3 : v.size * (stridesTotal vs).2 =
            (stridesTotal vs).2 * v.size := mul_comm _ _
        omega

theorem decodeGo_inDomain (vars : List VarDef) (sid : Int)
    (hpos : ∀ v ∈ vars, 0 < v.size)
    (h0 : 0 ≤ sid) (h1 : sid < (stridesTotal vars).2) :
    inDomain vars (decodeGo vars (stridesTotal vars).1 sid) = true := by
  induction vars generalizing sid with
  | nil => simp [decodeGo, inDomain]
  | cons v vs ih =>
    have hT : 0 < (stridesTotal vs).2 :=
      stridesTotal_pos vs (fun w hw => hpos w (by simp [hw]))
    simp only [stridesTotal, decodeGo] at h1 ⊢
    have htd : Int.tdiv sid (stridesTotal vs).2 = sid / (stridesTotal vs).2 :=
      Int.tdiv_eq_ediv h0 (le_of_lt hT)
    have htm : Int.tmod sid (stridesTotal vs).2 = sid % (stridesTotal vs).2 :=
      Int.tmod_eq_emod h0 (le_of_lt hT)
    have hq0 : 0 ≤ sid / (stridesTotal vs).2 := Int.ediv_nonneg h0 (le_of_lt hT)
    have hq1 : sid / (stridesTotal vs).2 < v.size := by
      apply Int.ediv_lt_of_lt_mul hT
      have : (stridesTotal vs).2 * v.size = v.size * (stridesTotal vs).2 :=
        mul_comm _ _
      omega
    have hr0 : 0 ≤ sid % (stridesTotal vs).2 :=
      Int.emod_nonneg sid (ne_of_gt hT)
    have hr1 : sid % (stridesTotal vs).2 < (stridesTotal vs).2 :=
      Int.emod_lt_of_pos sid hT
    have ihr := ih (sid % (stridesTotal vs).2)
      (fun w hw => hpos w (by simp [hw])) hr0 hr1
    simp only [inDomain, Bool.and_eq_true, inDomainVar, decide_eq_true_eq]
    refine ⟨?_, by rw [htm]; exact ihr⟩
    by_cases hvt : v.type = VarType.tint
    · rw [if_pos hvt]
      simp only [adjustVal, if_pos hvt, htd]
      constructor <;> omega
    · rw [if_neg hvt]
      simp only [adjustVal, if_neg hvt, htd]
      exact ⟨hq0, hq1⟩

theorem decodeGo_length (vars : List VarDef) (strs : List Int) (sid : Int)
    (h : strs.length = vars.length) :
    (decodeGo vars strs sid).length = vars.length := by
  induction vars generalizing strs sid with
  | nil => simp [decodeGo]
  | cons v vs ih =>
    cases strs with
    | nil => simp at h
    | cons s ss =>
      simp only [decodeGo, List.length_cons]
      rw [ih ss _ (by simpa using h)]

theorem stridesTotal_fst_length (vars : List VarDef) :
    (stridesTotal vars).1.length = vars.length := by
  induction vars with
  | nil => simp [stridesTotal]
  | cons v vs ih => simp [stridesTotal, ih]

theorem encode_decodeGo (vars : List VarDef) (sid : Int)
    (hpos : ∀ v ∈ vars, 0 < v.size)
    (h0 : 0 ≤ sid) (h1 : sid < (stridesTotal vars).2) :
    encodeGo vars (stridesTotal vars).1
      (decodeGo vars (stridesTotal vars).1 sid) = sid := by
  induction vars generalizing sid with
  | nil =>
    simp only [stridesTotal] at h1
    simp only [decodeGo, encodeGo]
    omega
  | cons v vs ih =>
    have hT : 0 < (stridesTotal vs).2 :=
      stridesTotal_pos vs (fun w hw => hpos w (by simp [hw]))
    simp only [stridesTotal, decodeGo, encodeGo] at h1 ⊢
    have htd : Int.tdiv sid (stridesTotal vs).2 = sid / (stridesTotal vs).2 :=
      Int.tdiv_eq_ediv h0 (le_of_lt hT)
    have htm : Int.tmod sid (stridesTotal vs).2 = sid % (stridesTotal vs).2 :=
      Int.tmod_eq_emod h0 (le_of_lt hT)
    have hr0 : 0 ≤ sid % (stridesTotal vs).2 :=
      Int.emod_nonneg sid (ne_of_gt hT)
    have hr1 : sid % (stridesTotal vs).2 < (stridesTotal vs).2 :=
      Int.emod_lt_of_pos sid hT
    have ihr := ih (sid % (stridesTotal vs).2)
      (fun w hw => hpos w (by simp [hw])) hr0 hr1
    have hadj : adjustVal v
        (if v.type = VarType.tint then
          Int.tdiv sid (stridesTotal vs).2 + v.min
         else Int.tdiv sid (stridesTotal vs).2) =
        Int.tdiv sid (stridesTotal vs).2 := by
      by_cases hvt : v.type = VarType.tint <;>
        simp [adjustVal, hvt]
    rw [hadj, htm, ihr, htd]
    have := Int.ediv_add_emod sid (stridesTotal vs).2
    nlinarith [this]

theorem decode_encodeGo (vars : List VarDef) (st : List Int)
    (hpos : ∀ v ∈ vars, 0 < v.size)
    (hd : inDomain vars st = true) :
    decodeGo vars (stridesTotal vars).1
      (encodeGo vars (stridesTotal vars).1 st) = st := by
  induction vars generalizing st with
  | nil =>
    cases st with
    | nil => simp [decodeGo]
    | cons x xs => simp [inDomain] at hd
  | cons v vs ih =>
    cases st with
    | nil => simp [inDomain] at hd
    | cons x xs =>
      simp only [inDomain, Bool.and_eq_true, inDomainVar,
        decide_eq_true_eq] at hd
      obtain ⟨⟨ha0, ha1⟩, hxs⟩ := hd
      have hT : 0 < (stridesTotal vs).2 :=
        stridesTotal_pos vs (fun w hw => hpos w (by simp [hw]))
      have he := encodeGo_bounds vs xs (fun w hw => hpos w (by simp [hw])) hxs
      simp only [stridesTotal, encodeGo, decodeGo]
      have hsum0 : 0 ≤ adjustVal v x * (stridesTotal vs).2 +
          encodeGo vs (stridesTotal vs).1 xs := by
        have := mul_nonneg ha0 (le_of_lt hT)
        omega
      have htd : Int.tdiv (adjustVal v x * (stridesTotal vs).2 +
          encodeGo vs (stridesTotal vs).1 xs) (stridesTotal vs).2 =
          (adjustVal v x * (stridesTotal vs).2 +
            encodeGo vs (stridesTotal vs).1 xs) / (stridesTotal vs).2 :=
        Int.tdiv_eq_ediv hsum0 (le_of_lt hT)
      have htm : Int.tmod (adjustVal v x * (stridesTotal vs).2 +
          encodeGo vs (stridesTotal vs).1 xs) (stridesTotal vs).2 =
          (adjustVal v x * (stridesTotal vs).2 +
            encodeGo vs (stridesTotal vs).1 xs) % (stridesTotal vs).2 :=
        Int.tmod_eq_emod hsum0 (le_of_lt hT)
      have hdiv : (adjustVal v x * (stridesTotal vs).2 +
          encodeGo vs (stridesTotal vs).1 xs) / (stridesTotal vs).2 =
          adjustVal v x := by
        rw [add_comm]
        rw [Int.add_mul_ediv_right _ _ (ne_of_gt hT)]
        rw [Int.ediv_eq_zero_of_lt he.1 he.2]
        omega
      have hmod : (adjustVal v x * (stridesTotal vs).2 +
          encodeGo vs (stridesTotal vs).1 xs) % (stridesTotal vs).2 =
          encodeGo vs (stridesTotal vs).1 xs := by
        rw [add_comm]
        rw [mul_comm (adjustVal v x) (stridesTotal vs).2]
        rw [Int.add_mul_emod_self_left]
        exact Int.emod_eq_of_lt he.1 he.2
      have h1 : Int.tdiv (adjustVal v x * (stridesTotal vs).2 +
          encodeGo vs (stridesTotal vs).1 xs) (stridesTotal vs).2 =
          adjustVal v x := by rw [htd, hdiv]
      have h2 : Int.tmod (adjustVal v x * (stridesTotal vs).2 +
          encodeGo vs (stridesTotal vs).1 xs) (stridesTotal vs).2 =
          encodeGo vs (stridesTotal vs).1 xs := by rw [htm, hmod]
      rw [h1, h2, ih xs (fun w hw => hpos w (by simp [hw])) hxs]
      have hhead : (if v.type = VarType.tint then adjustVal v x + v.min
          else adjustVal v x) = x := by
        by_cases hvt : v.type = VarType.tint
        · rw [if_pos hvt]
          simp only [adjustVal, if_pos hvt]
          omega
        · rw [if_neg hvt]
          simp only [adjustVal, if_neg hvt]
      rw [hhead]

/-! ## expr/lexer.go : tokenizer -/

/-- TokenType from expr/lexer.go. -/
inductive TokenType where
  | tEof
  | tInt
  | tIdent
  | tTrue
  | tFalse
  | tNot
  | tAnd
  | tOr
  | tIf
  | tThen
  | tElse
  | tEq
  | tNeq
  | tLt
  | tLe
  | tGt
  | tGe
  | tPlus
  | tMinus
  | tStar
  | tSlash
  | tPercent
  | tLParen
  | tRParen
  | tComma
deriving DecidableEq, Repr

/-- Token from expr/lexer.go. -/
structure Token where
  type : TokenType
  val : String
  pos : Nat
deriving DecidableEq, Repr

/-- unicode.IsSpace restricted to the ASCII bytes the lexer reads. -/
def isSpaceChar (c : Char) : Bool :=
  c = ' ' || c = '\t' || c = '\n' || c = '\x0b' || c = '\x0c' || c = '\r'

/-- unicode.IsDigit on ASCII bytes. -/
def isDigitChar (c : Char) : Bool :=
  '0' ≤ c && c ≤ '9'

/-- unicode.IsLetter on ASCII bytes. -/
def isLetterChar (c : Char) : Bool :=
  ('a' ≤ c && c ≤ 'z') || ('A' ≤ c && c ≤ 'Z')

/-- A continuation character of an identifier in the lexer loop. -/
def isIdentContChar (c : Char) : Bool :=
  isLetterChar c || isDigitChar c || c = '_'

/-- The keywords map from expr/lexer.go. -/
def keywordType (w : String) : Option TokenType :=
  if w = "true" then some TokenType.tTrue
  else if w = "false" then some TokenType.tFalse
  else if w = "not" then some TokenType.tNot
  else if w = "and" then some TokenType.tAnd
  else if w = "or" then some TokenType.tOr
  else if w = "if" then some TokenType.tIf
  else if w = "then" then some TokenType.tThen
  else if w = "else" then some TokenType.tElse
  else none

/-- Single-character operator dispatch (the final switch in Lex). -/
def singleCharTok (c : Char) : Option TokenType :=
  if c = '<' then some TokenType.tLt
  else if c = '>' then some TokenType.tGt
  else if c = '+' then some TokenType.tPlus
  else if c = '-' then some TokenType.tMinus
  else if c = '*' then some TokenType.tStar
  else if c = '/' then some TokenType.tSlash
  else if c = '%' then some TokenType.tPercent
  else if c = '(' then some TokenType.tLParen
  else if c = ')' then some TokenType.tRParen
  else if c = ',' then some TokenType.tComma
  else none

/-- Two-character operator dispatch in Lex. -/
def twoCharTok (c1 c2 : Char) : Option TokenType :=
  if c1 = '=' ∧ c2 = '=' then some TokenType.tEq
  else if c1 = '!' ∧ c2 = '=' then some TokenType.tNeq
  else if c1 = '<' ∧ c2 = '=' then some TokenType.tLe
  else if c1 = '>' ∧ c2 = '=' then some TokenType.tGe
  else none

/-- The main loop of Lex, over the remaining characters; pos tracks the
byte index, fuel bounds the iteration count (the loop advances at least
one character per iteration, so fuel = length + 1 always suffices). -/
def lexAux : Nat → List Char → Nat → Except String (List Token)
  | 0, _, _ => Except.error "lexer: out of fuel"
  | fuel + 1, cs, pos =>
    match cs with
    | [] => Except.ok [⟨TokenType.tEof, "", pos⟩]
    | c :: rest =>
      if isSpaceChar c then lexAux fuel rest (pos + 1)
      else if isDigitChar c then
        let ds := List.takeWhile isDigitChar (c :: rest)
        let rest' := List.dropWhile isDigitChar (c :: rest)
        match lexAux fuel rest' (pos + ds.length) with
        | Except.ok ts => Except.ok (⟨TokenType.tInt, String.mk ds, pos⟩ :: ts)
        | Except.error e => Except.error e
      else if isLetterChar c || c = '_' then
        let ws := List.takeWhile isIdentContChar (c :: rest)
        let rest' := List.dropWhile isIdentContChar (c :: rest)
        let word := String.mk ws
        let tt := match keywordType word with
          | some k => k
          | none => TokenType.tIdent
        match lexAux fuel rest' (pos + ws.length) with
        | Except.ok ts => Except.ok (⟨tt, word, pos⟩ :: ts)
        | Except.error e => Except.error e
      else
        match rest with
        | c2 :: rest2 =>
          match twoCharTok c c2 with
          | some tt =>
            match lexAux fuel rest2 (pos + 2) with
            | Except.ok ts =>
              Except.ok (⟨tt, String.mk [c, c2], pos⟩ :: ts)
            | Except.error e => Except.error e
          | none =>
            match singleCharTok c with
            | some tt =>
              match lexAux fuel (c2 :: rest2) (pos + 1) with
              | Except.ok ts => Except.ok (⟨tt, String.mk [c], pos⟩ :: ts)
              | Except.error e => Except.error e
            | none => Except.error "unexpected character"
        | [] =>
          match singleCharTok c with
          | some tt =>
            match lexAux fuel [] (pos + 1) with
            | Except.ok ts => Except.ok (⟨tt, String.mk [c], pos⟩ :: ts)
            | Except.error e => Except.error e
          | none => Except.error "unexpected character"

/-- Lex from expr/lexer.go. -/
def Lex (input : String) : Except String (List Token) :=
  lexAux (input.length + 1) input.toList 0

/-! ## expr/parser.go : Pratt parser -/

/-- The expression AST.  Go uses one generic Node struct discriminated by
a NodeType tag; here each tag is a constructor, carrying exactly the
fields the Go code reads for that tag (IntVal, BoolVal, Name, Children).
Unary minus is represented as 0 - operand, as in the Go parser. -/
inductive Node where
  | litInt (v : Int)
  | litBool (b : Bool)
  | evar (name : String)
  | enot (e : Node)
  | eand (a b : Node)
  | eor (a b : Node)
  | eeq (a b : Node)
  | eneq (a b : Node)
  | elt (a b : Node)
  | ele (a b : Node)
  | egt (a b : Node)
  | ege (a b : Node)
  | eadd (a b : Node)
  | esub (a b : Node)
  | emul (a b : Node)
  | ediv (a b : Node)
  | emod (a b : Node)
  | eif (c t e : Node)
  | ecall (name : String) (args : List Node)

/-- Precedence levels from expr/parser.go. -/
def precOr : Nat := 1

def precAnd : Nat := 2

def precCompare : Nat := 3

def precAdd : Nat := 4

def precMul : Nat := 5

/-- Parser state: token list plus current position. -/
structure PState where
  tokens : List Token
  pos : Nat
deriving Repr

/-- Parser.peek from expr/parser.go. -/
def peekP (p : PState) : Token :=
  match p.tokens[p.pos]? with
  | some t => t
  | none => ⟨TokenType.tEof, "", 0⟩

/-- Parser.advance from expr/parser.go (returns the token and the new
state). -/
def advanceP (p : PState) : Token × PState :=
  (peekP p, ⟨p.tokens, p.pos + 1⟩)

/-- infixInfo from expr/parser.go: precedence and node builder for an
infix operator token. -/
def infixInfo : TokenType → Option (Nat × (Node → Node → Node))
  | TokenType.tOr => some (precOr, Node.eor)
  | TokenType.tAnd => some (precAnd, Node.eand)
  | TokenType.tEq => some (precCompare, Node.eeq)
  | TokenType.tNeq => some (precCompare, Node.eneq)
  | TokenType.tLt => some (precCompare, Node.elt)
  | TokenType.tLe => some (precCompare, Node.ele)
  | TokenType.tGt => some (precCompare, Node.egt)
  | TokenType.tGe => some (precCompare, Node.ege)
  | TokenType.tPlus => some (precAdd, Node.eadd)
  | TokenType.tMinus => some (precAdd, Node.esub)
  | TokenType.tStar => some (precMul, Node.emul)
  | TokenType.tSlash => some (precMul, Node.ediv)
  | TokenType.tPercent => some (precMul, Node.emod)
  | _ => none

/-- isBuiltin from expr/parser.go. -/
def isBuiltin (name : String) : Bool :=
  name = "min" || name = "max" || name = "clamp"

/-- strconv.Atoi on the lexer's digit strings. -/
def digitsToInt (s : String) : Except String Int :=
  if s.toList ≠ [] ∧ s.toList.all isDigitChar then
    Except.ok (Int.ofNat (s.toList.foldl
      (fun acc c => acc * 10 + (c.toNat - 48)) 0))
  else Except.error "invalid integer"

mutual

/-- Parser.parseExpr from expr/parser.go.  Every recursive call in the
mutual group spends one unit of fuel; the entry point supplies enough. -/
def parseExpr : Nat → PState → Nat → Except String (Node × PState)
  | 0, _, _ => Except.error "parser: out of fuel"
  | fuel + 1, p, minPrec =>
    match parseUnary fuel p with
    | Except.error e => Except.error e
    | Except.ok (left, p') => parseInfixLoop fuel p' minPrec left

/-- The infix loop inside Parser.parseExpr. -/
def parseInfixLoop : Nat → PState → Nat → Node → Except String (Node × PState)
  | 0, _, _, _ => Except.error "parser: out of fuel"
  | fuel + 1, p, minPrec, left =>
    let tok := peekP p
    match infixInfo tok.type with
    | none => Except.ok (left, p)
    | some (prec, mk) =>
      if prec < minPrec then Except.ok (left, p)
      else if tok.type = TokenType.tIf then Except.ok (left, p)
      else
        let p1 := (advanceP p).2
        match parseExpr fuel p1 (prec + 1) with
        | Except.error e => Except.error e
        | Except.ok (right, p2) =>
          parseInfixLoop fuel p2 minPrec (mk left right)

/-- Parser.parseUnary from expr/parser.go. -/
def parseUnary : Nat → PState → Except String (Node × PState)
  | 0, _ => Except.error "parser: out of fuel"
  | fuel + 1, p =>
    let tok := peekP p
    if tok.type = TokenType.tNot then
      match parseUnary fuel (advanceP p).2 with
      | Except.error e => Except.error e
      | Except.ok (operand, p') => Except.ok (Node.enot operand, p')
    else if tok.type = TokenType.tIf then
      let p1 := (advanceP p).2
      match parseExpr fuel p1 0 with
      | Except.error e => Except.error e
      | Except.ok (cond, p2) =>
        let (t1, p3) := advanceP p2
        if t1.type ≠ TokenType.tThen then
          Except.error "expected then in if-then-else"
        else
          match parseExpr fuel p3 0 with
          | Except.error e => Except.error e
          | Except.ok (thenE, p4) =>
            let (t2, p5) := advanceP p4
            if t2.type ≠ TokenType.tElse then
              Except.error "expected else in if-then-else"
            else
              match parseExpr fuel p5 0 with
              | Except.error e => Except.error e
              | Except.ok (elseE, p6) =>
                Except.ok (Node.eif cond thenE elseE, p6)
    else if tok.type = TokenType.tMinus then
      match parseUnary fuel (advanceP p).2 with
      | Except.error e => Except.error e
      | Except.ok (operand, p') =>
        Except.ok (Node.esub (Node.litInt 0) operand, p')
    else parseAtom fuel p

/-- Parser.parseAtom from expr/parser.go. -/
def parseAtom : Nat → PState → Except String (Node × PState)
  | 0, _ => Except.error "parser: out of fuel"
  | fuel + 1, p =>
    let (tok, p') := advanceP p
    match tok.type with
    | TokenType.tInt =>
      match digitsToInt tok.val with
      | Except.error e => Except.error e
      | Except.ok v => Except.ok (Node.litInt v, p')
    | TokenType.tTrue => Except.ok (Node.litBool true, p')
    | TokenType.tFalse => Except.ok (Node.litBool false, p')
    | TokenType.tIdent =>
      if (peekP p').type = TokenType.tLParen && isBuiltin tok.val then
        parseCall fuel p' tok.val
      else Except.ok (Node.evar tok.val, p')
    | TokenType.tLParen =>
      match parseExpr fuel p' 0 with
      | Except.error e => Except.error e
      | Except.ok (e, p2) =>
        let (t1, p3) := advanceP p2
        if t1.type ≠ TokenType.tRParen then
          Except.error "expected closing paren"
        else Except.ok (e, p3)
    | _ => Except.error "unexpected token"

/-- Parser.parseCall from expr/parser.go: consume the opening paren and
parse the argument list. -/
def parseCall : Nat → PState → String → Except String (Node × PState)
  | 0, _, _ => Except.error "parser: out of fuel"
  | fuel + 1, p, name => parseCallArgs fuel (advanceP p).2 name []

/-- The argument loop of Parser.parseCall, then the closing paren and
the arity checks. -/
def parseCallArgs : Nat → PState → String → List Node →
    Except String (Node × PState)
  | 0, _, _, _ => Except.error "parser: out of fuel"
  | fuel + 1, p, name, args =>
    match parseExpr fuel p 0 with
    | Except.error e => Except.error e
    | Except.ok (arg, p') =>
      let args' := args ++ [arg]
      if (peekP p').type = TokenType.tComma then
        parseCallArgs fuel (advanceP p').2 name args'
      else
        let (t1, p2) := advanceP p'
        if t1.type ≠ TokenType.tRParen then
          Except.error "expected paren after arguments"
        else if (name = "min" ∨ name = "max") ∧ args'.length ≠ 2 then
          Except.error "min or max requires 2 arguments"
        else if name = "clamp" ∧ args'.length ≠ 3 then
          Except.error "clamp requires 3 arguments"
        else Except.ok (Node.ecall name args', p2)

end

/-- The top-level token parse (the body of Parse after lexing): parse an
expression and require EOF. -/
def parseTokens (tokens : List Token) : Except String Node :=
  match parseExpr (4 * tokens.length + 4) ⟨tokens, 0⟩ 0 with
  | Except.error e => Except.error e
  | Except.ok (node, p') =>
    if (peekP p').type ≠ TokenType.tEof then Except.error "unexpected token"
    else Except.ok node

/-- Parse from expr/parser.go. -/
def Parse (input : String) : Except String Node :=
  match Lex input with
  | Except.error e => Except.error e
  | Except.ok tokens => parseTokens tokens

/-! ## expr/eval.go : evaluator -/

/-- Value from expr/eval.go: tagged union with both payloads present,
exactly as the Go struct. -/
structure Value where
  isInt : Bool
  isBool : Bool
  int : Int
  bool : Bool
deriving DecidableEq, Repr

/-- A Go Value literal with only IsInt and Int set. -/
def intValue (n : Int) : Value :=
  ⟨true, false, n, false⟩

/-- A Go Value literal with only IsBool and Bool set. -/
def boolValue (b : Bool) : Value :=
  ⟨false, true, 0, b⟩

/-- Env from expr/eval.go (the unused EnumVarMap field is omitted;
NewEnv never populates it). -/
structure Env where
  schema : Schema
  state : List Int
  enumLiterals : List (String × Int)

/-- NewEnv from expr/eval.go. -/
def NewEnv (schema : Schema) (state : List Int)
    (enumLiterals : List (String × Int)) : Env :=
  ⟨schema, state, enumLiterals⟩

/-- The inner loop of BuildEnumLiterals: fold the values of the enum
variables into the literal table, rejecting collisions. -/
def addEnumValues (varNames : List String) (lits : List (String × Int)) :
    List String → Int → Except String (List (String × Int))
  | [], _ => Except.ok lits
  | lit :: restVals, idx =>
    if varNames.contains lit then
      Except.error "enum literal conflicts with variable name"
    else if (lits.lookup lit).isSome then
      Except.error "enum literal appears in multiple enums"
    else addEnumValues varNames (lits ++ [(lit, idx)]) restVals (idx + 1)

/-- The outer loop of BuildEnumLiterals over the schema variables. -/
def buildEnumLiteralsAux (varNames : List String)
    (lits : List (String × Int)) :
    List VarDef → Except String (List (String × Int))
  | [] => Except.ok lits
  | v :: vs =>
    if v.type ≠ VarType.tenum then buildEnumLiteralsAux varNames lits vs
    else
      match addEnumValues varNames lits v.values 0 with
      | Except.error e => Except.error e
      | Except.ok lits' => buildEnumLiteralsAux varNames lits' vs

/-- BuildEnumLiterals from expr/eval.go: literal to encoded value, with
collision checks against variable names and other enums. -/
def BuildEnumLiterals (schema : Schema) :
    Except String (List (String × Int)) :=
  buildEnumLiteralsAux (schema.vars.map VarDef.name) [] schema.vars

/-- The state-variable branch of Eval's NodeVar case: look up the
variable's current value, typed per the variable definition.  The Go
code indexes env.State[idx]; out-of-range reads cannot occur for states
produced by Decode. -/
def evalVarAt (env : Env) (idx : Nat) : Except String Value :=
  match env.schema.vars[idx]?, env.state[idx]? with
  | some v, some x =>
    match v.type with
    | VarType.tbool => Except.ok (boolValue (x = 1))
    | VarType.tenum => Except.ok (intValue x)
    | VarType.tint => Except.ok (intValue x)
  | _, _ => Except.error "state index out of range"

/-- Eval from expr/eval.go. -/
def Eval (env : Env) : Node → Except String Value
  | Node.litInt v => Except.ok (intValue v)
  | Node.litBool b => Except.ok (boolValue b)
  | Node.evar name =>
    let idx := env.schema.VarIndex name
    if 0 ≤ idx then evalVarAt env idx.toNat
    else
      match env.enumLiterals.lookup name with
      | some val => Except.ok (intValue val)
      | none => Except.error "undefined identifier"
  | Node.enot e =>
    match Eval env e with
    | Except.error e => Except.error e
    | Except.ok v =>
      if !v.isBool then Except.error "not requires bool operand"
      else Except.ok (boolValue (!v.bool))
  | Node.eand a b =>
    match Eval env a with
    | Except.error e => Except.error e
    | Except.ok l =>
      match Eval env b with
      | Except.error e => Except.error e
      | Except.ok r =>
        if !l.isBool || !r.isBool then
          Except.error "and requires bool operands"
        else Except.ok (boolValue (l.bool && r.bool))
  | Node.eor a b =>
    match Eval env a with
    | Except.error e => Except.error e
    | Except.ok l =>
      match Eval env b with
      | Except.error e => Except.error e
      | Except.ok r =>
        if !l.isBool || !r.isBool then
          Except.error "or requires bool operands"
        else Except.ok (boolValue (l.bool || r.bool))
  | Node.eeq a b =>
    match Eval env a with
    | Except.error e => Except.error e
    | Except.ok l =>
      match Eval env b with
      | Except.error e => Except.error e
      | Except.ok r =>
        if l.isBool && r.isBool then
          Except.ok (boolValue (l.bool = r.bool))
        else if l.isInt && r.isInt then
          Except.ok (boolValue (l.int = r.int))
        else Except.error "type mismatch in equality comparison"
  | Node.eneq a b =>
    match Eval env a with
    | Except.error e => Except.error e
    | Except.ok l =>
      match Eval env b with
      | Except.error e => Except.error e
      | Except.ok r =>
        if l.isBool && r.isBool then
          Except.ok (boolValue (!(l.bool = r.bool)))
        else if l.isInt && r.isInt then
          Except.ok (boolValue (!(l.int = r.int)))
        else Except.error "type mismatch in equality comparison"
  | Node.elt a b =>
    match Eval env a with
    | Except.error e => Except.error e
    | Except.ok l =>
      match Eval env b with
      | Except.error e => Except.error e
      | Except.ok r =>
        if !l.isInt || !r.isInt then
          Except.error "comparison requires int operands"
        else Except.ok (boolValue (l.int < r.int))
  | Node.ele a b =>
    match Eval env a with
    | Except.error e => Except.error e
    | Except.ok l =>
      match Eval env b with
      | Except.error e => Except.error e
      | Except.ok r =>
        if !l.isInt || !r.isInt then
          Except.error "comparison requires int operands"
        else Except.ok (boolValue (l.int ≤ r.int))
  | Node.egt a b =>
    match Eval env a with
    | Except.error e => Except.error e
    | Except.ok l =>
      match Eval env b with
      | Except.error e => Except.error e
      | Except.ok r =>
        if !l.isInt || !r.isInt then
          Except.error "comparison requires int operands"
        else Except.ok (boolValue (r.int < l.int))
  | Node.ege a b =>
    match Eval env a with
    | Except.error e => Except.error e
    | Except.ok l =>
      match Eval env b with
      | Except.error e => Except.error e
      | Except.ok r =>
        if !l.isInt || !r.isInt then
          Except.error "comparison requires int operands"
        else Except.ok (boolValue (r.int ≤ l.int))
  | Node.eadd a b =>
    match Eval env a with
    | Except.error e => Except.error e
    | Except.ok l =>
      match Eval env b with
      | Except.error e => Except.error e
      | Except.ok r =>
        if !l.isInt || !r.isInt then
          Except.error "arithmetic requires int operands"
        else Except.ok (intValue (l.int + r.int))
  | Node.esub a b =>
    match Eval env a with
    | Except.error e => Except.error e
    | Except.ok l =>
      match Eval env b with
      | Except.error e => Except.error e
      | Except.ok r =>
        if !l.isInt || !r.isInt then
          Except.error "arithmetic requires int operands"
        else Except.ok (intValue (l.int - r.int))
  | Node.emul a b =>
    match Eval env a with
    | Except.error e => Except.error e
    | Except.ok l =>
      match Eval env b with
      | Except.error e => Except.error e
      | Except.ok r =>
        if !l.isInt || !r.isInt then
          Except.error "arithmetic requires int operands"
        else Except.ok (intValue (l.int * r.int))
  | Node.ediv a b =>
    match Eval env a with
    | Except.error e => Except.error e
    | Except.ok l =>
      match Eval env b with
      | Except.error e => Except.error e
      | Except.ok r =>
        if !l.isInt || !r.isInt then
          Except.error "arithmetic requires int operands"
        else if r.int = 0 then Except.error "division by zero"
        else Except.ok (intValue (Int.tdiv l.int r.int))
  | Node.emod a b =>
    match Eval env a with
    | Except.error e => Except.error e
    | Except.ok l =>
      match Eval env b with
      | Except.error e => Except.error e
      | Except.ok r =>
        if !l.isInt || !r.isInt then
          Except.error "arithmetic requires int operands"
        else if r.int = 0 then Except.error "modulo by zero"
        else Except.ok (intValue (Int.tmod l.int r.int))
  | Node.eif c t e =>
    match Eval env c with
    | Except.error err => Except.error err
    | Except.ok cv =>
      if !cv.isBool then Except.error "if condition must be bool"
      else if cv.bool then Eval env t
      else Eval env e
  | Node.ecall name args =>
    if name = "min" then
      match args with
      | a :: b :: _ =>
        match Eval env a with
        | Except.error e => Except.error e
        | Except.ok l =>
          match Eval env b with
          | Except.error e => Except.error e
          | Except.ok r =>
            if !l.isInt || !r.isInt then
              Except.error "min requires int arguments"
            else if l.int < r.int then Except.ok l
            else Except.ok r
      | _ => Except.error "min: missing arguments"
    else if name = "max" then
      match args with
      | a :: b :: _ =>
        match Eval env a with
        | Except.error e => Except.error e
        | Except.ok l =>
          match Eval env b with
          | Except.error e => Except.error e
          | Except.ok r =>
            if !l.isInt || !r.isInt then
              Except.error "max requires int arguments"
            else if r.int < l.int then Except.ok l
            else Except.ok r
      | _ => Except.error "max: missing arguments"
    else if name = "clamp" then
      match args with
      | a :: b :: c :: _ =>
        match Eval env a with
        | Except.error e => Except.error e
        | Except.ok lo =>
          match Eval env b with
          | Except.error e => Except.error e
          | Except.ok x =>
            match Eval env c with
            | Except.error e => Except.error e
            | Except.ok hi =>
              if !lo.isInt || !x.isInt || !hi.isInt then
                Except.error "clamp requires int arguments"
              else
                let v1 := if x.int < lo.int then lo.int else x.int
                let v2 := if hi.int < v1 then hi.int else v1
                Except.ok (intValue v2)
      | _ => Except.error "clamp: missing arguments"
    else Except.error "unknown function"

/-- EvalBool from expr/eval.go. -/
def EvalBool (env : Env) (node : Node) : Except String Bool :=
  match Eval env node with
  | Except.error e => Except.error e
  | Except.ok v =>
    if !v.isBool then Except.error "expected bool expression, got int"
    else Except.ok v.bool

/-! ## verify (part_003) : compiler -/

/-- MaxStates from the verify package. -/
def MaxStates : Int := 1000000

/-- MaxRepairIter from the verify package. -/
def MaxRepairIter : Nat := 1000

/-- CompiledRegistry from the verify package.  The Go int-keyed maps for
repair and event assignments are modelled as association lists. -/
structure CompiledRegistry where
  reg : Registry
  schema : Schema
  enumLiterals : List (String × Int)
  invExprs : List Node
  repExprs : List (List (Int × Node))
  evtGuards : List (Option Node)
  evtExprs : List (List (Int × Node))

/-- The invariant-parsing loop of Compile. -/
def compileInvariants : List Invariant → Except String (List Node)
  | [] => Except.ok []
  | inv :: rest =>
    match Parse inv.expr with
    | Except.error e =>
      Except.error ("invariant " ++ inv.name ++ ": " ++ e)
    | Except.ok node =>
      match compileInvariants rest with
      | Except.error e => Except.error e
      | Except.ok nodes => Except.ok (node :: nodes)

/-- The per-block assignment-parsing loop of Compile (shared shape of
the repair and event loops): resolve each target variable and parse each
right-hand side.  The who string only feeds error messages. -/
def compileAssigns (who : String) (schema : Schema) :
    List (String × String) → Except String (List (Int × Node))
  | [] => Except.ok []
  | (varName, exprStr) :: rest =>
    let idx := schema.VarIndex varName
    if idx < 0 then
      Except.error (who ++ ": unknown variable " ++ varName)
    else
      match Parse exprStr with
      | Except.error e =>
        Except.error (who ++ ", var " ++ varName ++ ": " ++ e)
      | Except.ok node =>
        match compileAssigns who schema rest with
        | Except.error e => Except.error e
        | Except.ok tail => Except.ok ((idx, node) :: tail)

/-- The repair-parsing loop of Compile. -/
def compileRepairs (schema : Schema) :
    List Repair → Except String (List (List (Int × Node)))
  | [] => Except.ok []
  | rep :: rest =>
    match compileAssigns ("repair for " ++ rep.invariant) schema
        rep.assignments with
    | Except.error e => Except.error e
    | Except.ok m =>
      match compileRepairs schema rest with
      | Except.error e => Except.error e
      | Except.ok ms => Except.ok (m :: ms)

/-- The event-parsing loop of Compile: optional guard plus assignments. -/
def compileEvents (schema : Schema) :
    List Event → Except String (List (Option Node) × List (List (Int × Node)))
  | [] => Except.ok ([], [])
  | evt :: rest =>
    let guardRes : Except String (Option Node) :=
      if evt.guard = "" then Except.ok none
      else
        match Parse evt.guard with
        | Except.error e =>
          Except.error ("event " ++ evt.name ++ " guard: " ++ e)
        | Except.ok g => Except.ok (some g)
    match guardRes with
    | Except.error e => Except.error e
    | Except.ok guard =>
      match compileAssigns ("event " ++ evt.name) schema evt.assignments with
      | Except.error e => Except.error e
      | Except.ok m =>
        match compileEvents schema rest with
        | Except.error e => Except.error e
        | Except.ok (gs, ms) => Except.ok (guard :: gs, m :: ms)

/-- Compile from the verify package. -/
def Compile (reg : Registry) : Except String CompiledRegistry :=
  let schema := NewSchema reg.vars
  if MaxStates < schema.totalLen then
    Except.error ("state space too large: " ++ toString schema.totalLen ++
      " (max " ++ toString MaxStates ++ ")")
  else
    match BuildEnumLiterals schema with
    | Except.error e => Except.error e
    | Except.ok enumLiterals =>
      match compileInvariants reg.invariants with
      | Except.error e => Except.error e
      | Except.ok invExprs =>
        match compileRepairs schema reg.compensation with
        | Except.error e => Except.error e
        | Except.ok repExprs =>
          match compileEvents schema reg.events with
          | Except.error e => Except.error e
          | Except.ok (evtGuards, evtExprs) =>
            Except.ok ⟨reg, schema, enumLiterals, invExprs, repExprs,
              evtGuards, evtExprs⟩

/-! ## verify : state formatting and assignment application -/

/-- One variable rendered by fmtState. -/
def fmtVar (vd : VarDef) (x : Int) : String :=
  match vd.type with
  | VarType.tbool => if x = 1 then vd.name ++ "=true" else vd.name ++ "=false"
  | VarType.tenum =>
    if 0 ≤ x ∧ x < (vd.values.length : Int) then
      vd.name ++ "=" ++ vd.values.getD x.toNat ""
    else vd.name ++ "=?" ++ toString x
  | VarType.tint => vd.name ++ "=" ++ toString x

/-- fmtState from the verify package. -/
def fmtStateGo (vars : List VarDef) (st : List Int) : String :=
  "\x7b" ++ String.intercalate ", " (List.zipWith fmtVar vars st) ++ "\x7d"

/-- evalValid from the verify package: conjunction of the invariant
expressions, first false wins (worker over explicit fields). -/
def evalValidW (schema : Schema) (enumLits : List (String × Int))
    (st : List Int) : List Node → Except String Bool
  | [] => Except.ok true
  | e :: es =>
    match EvalBool (NewEnv schema st enumLits) e with
    | Except.error err => Except.error err
    | Except.ok v =>
      if v then evalValidW schema enumLits st es else Except.ok false

/-- The loop of applyAssignments: walk the assignment list, evaluating
every right-hand side in the environment of the pre-state st0 and
committing into post.  The Go loop ranges over a map whose iteration
order is unspecified; since each key is written once and every
evaluation reads st0, the result is order-independent. -/
def applyAssignsGo (schema : Schema) (enumLits : List (String × Int))
    (st0 : List Int) : List (Int × Node) → List Int →
    Except String (List Int)
  | [], post => Except.ok post
  | (varIdx, node) :: rest, post =>
    match Eval (NewEnv schema st0 enumLits) node with
    | Except.error e => Except.error e
    | Except.ok val =>
      if varIdx < 0 then Except.error "variable index out of range"
      else
        match schema.vars[varIdx.toNat]? with
        | none => Except.error "variable index out of range"
        | some v =>
          match v.type with
          | VarType.tbool =>
            if !val.isBool then
              Except.error ("assignment to bool " ++ v.name ++
                " requires bool value")
            else
              applyAssignsGo schema enumLits st0 rest
                (post.set varIdx.toNat (if val.bool then 1 else 0))
          | VarType.tenum =>
            if !val.isInt then
              Except.error ("assignment to enum " ++ v.name ++
                " requires enum value")
            else if val.int < 0 ∨ v.size ≤ val.int then
              Except.error ("assignment to enum " ++ v.name ++
                ": value out of range")
            else
              applyAssignsGo schema enumLits st0 rest
                (post.set varIdx.toNat val.int)
          | VarType.tint =>
            if !val.isInt then
              Except.error ("assignment to int " ++ v.name ++
                " requires int value")
            else if val.int < v.min ∨ v.max < val.int then
              Except.error ("SPEC ERROR: assignment to " ++ v.name ++
                " computed value out of allowed range in state " ++
                fmtStateGo schema.vars st0)
            else
              applyAssignsGo schema enumLits st0 rest
                (post.set varIdx.toNat val.int)

/-- applyAssignments from the verify package: post starts as a copy of
the pre-state, every right-hand side reads the pre-state. -/
def applyAssignments (schema : Schema) (enumLits : List (String × Int))
    (assignments : List (Int × Node)) (st : List Int) :
    Except String (List Int) :=
  applyAssignsGo schema enumLits st assignments st

/-- evalGuard from the verify package: a nil guard means always
enabled. -/
def evalGuardW (schema : Schema) (enumLits : List (String × Int))
    (evtGuards : List (Option Node)) (evtIdx : Nat) (st : List Int) :
    Except String Bool :=
  match evtGuards[evtIdx]? with
  | none => Except.error "event index out of range"
  | some none => Except.ok true
  | some (some g) => EvalBool (NewEnv schema st enumLits) g

/-! ## verify : normalization -/

/-- The inner scan of computeNF: find the first invariant (in declared
order) that evaluates to false at st and apply its repair; ok none when
every invariant holds.  invNames feeds the missing-repair message. -/
def fireFirstAux (schema : Schema) (enumLits : List (String × Int))
    (invNames : List String) (repExprs : List (List (Int × Node)))
    (st : List Int) : Nat → List Node →
    Except String (Option (List Int))
  | _, [] => Except.ok none
  | ri, e :: es =>
    match EvalBool (NewEnv schema st enumLits) e with
    | Except.error err => Except.error err
    | Except.ok v =>
      if v then fireFirstAux schema enumLits invNames repExprs st (ri + 1) es
      else
        match repExprs[ri]? with
        | none =>
          Except.error ("no repair defined for invariant " ++
            invNames.getD ri "")
        | some assigns =>
          match applyAssignments schema enumLits assigns st with
          | Except.error e => Except.error e
          | Except.ok newSt => Except.ok (some newSt)

/-- The iteration of computeNF, fuel-bounded by MaxRepairIter exactly as
the Go loop; sid0 is the originating state for the cap message. -/
def computeNFAux (schema : Schema) (enumLits : List (String × Int))
    (invNames : List String) (invExprs : List Node)
    (repExprs : List (List (Int × Node))) (valid : List Bool)
    (sid0 : Int) : Nat → Int → Except String Int
  | 0, _ =>
    Except.error ("compensation did not terminate within 1000 steps from state " ++
      fmtStateGo schema.vars (schema.Decode sid0))
  | fuel + 1, current =>
    if valid.getD current.toNat false then Except.ok current
    else
      let st := schema.Decode current
      match fireFirstAux schema enumLits invNames repExprs st 0 invExprs with
      | Except.error e => Except.error e
      | Except.ok none => Except.ok current
      | Except.ok (some newSt) =>
        computeNFAux schema enumLits invNames invExprs repExprs valid sid0
          fuel (schema.Encode newSt)

/-- computeNF from the verify package. -/
def computeNFW (schema : Schema) (enumLits : List (String × Int))
    (invNames : List String) (invExprs : List Node)
    (repExprs : List (List (Int × Node))) (valid : List Bool)
    (sid : Int) : Except String Int :=
  computeNFAux schema enumLits invNames invExprs repExprs valid sid
    MaxRepairIter sid

/-- The iteration of repairDepth: the same loop as computeNF but
counting repair steps.  (Go's repairDepth indexes the repair list
without the bounds check of computeNF; the shared scan here returns an
error there instead of panicking, a path unreachable whenever computeNF
succeeded on the same state.) -/
def repairDepthAux (schema : Schema) (enumLits : List (String × Int))
    (invNames : List String) (invExprs : List Node)
    (repExprs : List (List (Int × Node))) (valid : List Bool) :
    Nat → Int → Int → Except String Int
  | 0, _, _ => Except.error "repair did not terminate"
  | fuel + 1, depth, current =>
    if valid.getD current.toNat false then Except.ok depth
    else
      let st := schema.Decode current
      match fireFirstAux schema enumLits invNames repExprs st 0 invExprs with
      | Except.error e => Except.error e
      | Except.ok none => Except.ok depth
      | Except.ok (some newSt) =>
        repairDepthAux schema enumLits invNames invExprs repExprs valid
          fuel (depth + 1) (schema.Encode newSt)

/-- repairDepth from the verify package. -/
def repairDepthW (schema : Schema) (enumLits : List (String × Int))
    (invNames : List String) (invExprs : List Node)
    (repExprs : List (List (Int × Node))) (valid : List Bool)
    (sid : Int) : Except String Int :=
  repairDepthAux schema enumLits invNames invExprs repExprs valid
    MaxRepairIter 0 sid

/-! ## verify : table building -/

/-- Sequential error-propagating map, the shape of every per-state loop
in BuildTables. -/
def listMapE {α β : Type} (f : α → Except String β) :
    List α → Except String (List β)
  | [] => Except.ok []
  | a :: rest =>
    match f a with
    | Except.error e => Except.error e
    | Except.ok b =>
      match listMapE f rest with
      | Except.error e => Except.error e
      | Except.ok bs => Except.ok (b :: bs)

/-- The three precomputed tables. -/
structure Tables where
  valid : List Bool
  nf : List Int
  step : List (List Int)
deriving DecidableEq, Repr

/-- Error-context wrapping, the shape of every located fmt.Errorf wrap
in BuildTables: prepend a message to an error, pass ok through. -/
def wrapErr {β : Type} (w : String) (r : Except String β) :
    Except String β :=
  match r with
  | Except.error e => Except.error (w ++ e)
  | Except.ok v => Except.ok v

/-- Phase 1 of BuildTables: Valid over all states. -/
def buildValidW (schema : Schema) (enumLits : List (String × Int))
    (invExprs : List Node) : Except String (List Bool) :=
  listMapE
    (fun sid =>
      wrapErr ("validity check at state " ++
          fmtStateGo schema.vars (schema.Decode ((sid : Nat) : Int)) ++ ": ")
        (evalValidW schema enumLits (schema.Decode ((sid : Nat) : Int))
          invExprs))
    (List.range schema.totalLen.toNat)

/-- Phase 2 of BuildTables: NF over all states. -/
def buildNFW (schema : Schema) (enumLits : List (String × Int))
    (invNames : List String) (invExprs : List Node)
    (repExprs : List (List (Int × Node))) (valid : List Bool) :
    Except String (List Int) :=
  listMapE
    (fun sid =>
      wrapErr ("normal form at state " ++
          fmtStateGo schema.vars (schema.Decode ((sid : Nat) : Int)) ++ ": ")
        (computeNFW schema enumLits invNames invExprs repExprs valid
          ((sid : Nat) : Int)))
    (List.range schema.totalLen.toNat)

/-- One Step cell: -1 when the guard is false, otherwise the normal form
of the post-state of the event's assignments. -/
def stepCellW (schema : Schema) (enumLits : List (String × Int))
    (evtGuards : List (Option Node)) (evtExprs : List (List (Int × Node)))
    (nf : List Int) (ei : Nat) (sid : Nat) : Except String Int :=
  let st := schema.Decode ((sid : Nat) : Int)
  match wrapErr "event guard at state: "
      (evalGuardW schema enumLits evtGuards ei st) with
  | Except.error e => Except.error e
  | Except.ok enabled =>
    if !enabled then Except.ok (-1)
    else
      match wrapErr "event at state: "
          (applyAssignments schema enumLits (evtExprs.getD ei []) st) with
      | Except.error e => Except.error e
      | Except.ok post =>
        Except.ok (nf.getD (schema.Encode post).toNat (-1))

/-- Phase 3 of BuildTables: Step over all events and states. -/
def buildStepW (schema : Schema) (enumLits : List (String × Int))
    (evtGuards : List (Option Node)) (evtExprs : List (List (Int × Node)))
    (nf : List Int) (numEvts : Nat) : Except String (List (List Int)) :=
  listMapE
    (fun ei =>
      listMapE (stepCellW schema enumLits evtGuards evtExprs nf ei)
        (List.range schema.totalLen.toNat))
    (List.range numEvts)

/-- BuildTables from the verify package, as a worker over the compiled
fields. -/
def buildTablesW (schema : Schema) (enumLits : List (String × Int))
    (invNames : List String) (invExprs : List Node)
    (repExprs : List (List (Int × Node))) (evtGuards : List (Option Node))
    (evtExprs : List (List (Int × Node))) (numEvts : Nat) :
    Except String Tables :=
  match buildValidW schema enumLits invExprs with
  | Except.error e => Except.error e
  | Except.ok valid =>
    match buildNFW schema enumLits invNames invExprs repExprs valid with
    | Except.error e => Except.error e
    | Except.ok nf =>
      match buildStepW schema enumLits evtGuards evtExprs nf numEvts with
      | Except.error e => Except.error e
      | Except.ok step => Except.ok ⟨valid, nf, step⟩

/-- BuildTables from the verify package. -/
def BuildTables (cr : CompiledRegistry) : Except String Tables :=
  buildTablesW cr.schema cr.enumLiterals (cr.reg.invariants.map Invariant.name)
    cr.invExprs cr.repExprs cr.evtGuards cr.evtExprs cr.reg.events.length

/-! ## verify : WFC checker -/

/-- The violation predicate of CheckWFC's first loop at one state: the
normal form is not valid, or the state is valid but not fixed. -/
def wfcBadAt (valid : List Bool) (nf : List Int) (sid : Nat) : Bool :=
  !(valid.getD (nf.getD sid (-1)).toNat false) ||
    (valid.getD sid false && !(nf.getD sid (-1) = (sid : Int)))

/-- The running maximum of the second loop of CheckWFC. -/
def maxDepthFold (depths : List Int) : Int :=
  depths.foldl (fun m d => if m < d then d else m) 0

/-- CheckWFC from the verify package (worker): returns (pass, maxDepth,
badState); a thrown error models the non-nil err return. -/
def CheckWFCW (schema : Schema) (enumLits : List (String × Int))
    (invNames : List String) (invExprs : List Node)
    (repExprs : List (List (Int × Node))) (valid : List Bool)
    (nf : List Int) : Except String (Bool × Int × String) :=
  match (List.range schema.totalLen.toNat).find? (wfcBadAt valid nf) with
  | some sid =>
    if !(valid.getD (nf.getD sid (-1)).toNat false) then
      Except.ok (false, 0,
        "state " ++ fmtStateGo schema.vars (schema.Decode ((sid : Nat) : Int)) ++
        " → NF " ++
        fmtStateGo schema.vars (schema.Decode (nf.getD sid (-1))) ++
        " which is not valid")
    else
      Except.ok (false, 0,
        "valid state " ++
        fmtStateGo schema.vars (schema.Decode ((sid : Nat) : Int)) ++
        " has NF " ++
        fmtStateGo schema.vars (schema.Decode (nf.getD sid (-1))) ++
        " (not a fixpoint)")
  | none =>
    match listMapE
        (fun sid => repairDepthW schema enumLits invNames invExprs repExprs
          valid ((sid : Nat) : Int))
        (List.range schema.totalLen.toNat) with
    | Except.error e => Except.error e
    | Except.ok depths => Except.ok (true, maxDepthFold depths, "")

/-- CheckWFC from the verify package. -/
def CheckWFC (cr : CompiledRegistry) (t : Tables) :
    Except String (Bool × Int × String) :=
  CheckWFCW cr.schema cr.enumLiterals (cr.reg.invariants.map Invariant.name)
    cr.invExprs cr.repExprs t.valid t.nf

/-! ## verify : CC checker -/

/-- isIdentChar from the verify package. -/
def isIdentCharGo (c : Char) : Bool :=
  ('a' ≤ c && c ≤ 'z') || ('A' ≤ c && c ≤ 'Z') ||
    ('0' ≤ c && c ≤ '9') || c = '_'

/-- containsIdent from the verify package.  The Go loop walks every
occurrence of ident in s via strings.Index and accepts the first one
bounded by non-identifier characters; equivalently, some position p
carries an occurrence with both boundaries free. -/
def containsIdent (s ident : String) : Bool :=
  let cs := s.toList
  let idc := ident.toList
  (List.range (cs.length + 1)).any (fun p =>
    List.isPrefixOf idc (cs.drop p) &&
    (decide (p = 0) || !(isIdentCharGo (cs.getD (p - 1) ' '))) &&
    (decide (cs.length ≤ p + idc.length) ||
      !(isIdentCharGo (cs.getD (p + idc.length) ' '))))

/-- The write set of an event: the variable indices keyed by its
compiled assignments. -/
def eventWrites (evtExprs : List (List (Int × Node))) (ei : Nat) :
    List Int :=
  (evtExprs.getD ei []).map Prod.fst

/-- The read set of an event, per CheckCC: every schema variable whose
name occurs as an identifier token in the raw guard text or in any raw
assignment right-hand side. -/
def eventReads (schema : Schema) (evt : Event) : List Int :=
  schema.vars.filterMap (fun v =>
    if (if evt.guard = "" then false else containsIdent evt.guard v.name) ||
        evt.assignments.any (fun kv => containsIdent kv.2 v.name) then
      some (schema.VarIndex v.name)
    else none)

/-- isIndependent from CheckCC: neither event writes a variable in the
other's write or read set. -/
def isIndependentW (w1 r1 w2 r2 : List Int) : Bool :=
  w1.all (fun w => !(w2.contains w) && !(r2.contains w)) &&
    w2.all (fun w => !(w1.contains w) && !(r1.contains w))

/-- CCResult from the verify package. -/
structure CCResult where
  ccPass : Bool
  cc1Pass : Bool
  cc2Pass : Bool
  pairsChecked : Int
  dependentSkipped : Int
  cc1FailEvent1 : String
  cc1FailEvent2 : String
  cc1FailState : String
  cc1FailNF1 : String
  cc1FailNF2 : String
  cc2FailEvent : String
  cc2FailState : String
  cc2FailNFState : String
  cc2FailNF1 : String
  cc2FailNF2 : String
deriving DecidableEq, Repr

/-- The zero CCResult at the start of CheckCC (both passes start true). -/
def ccInit : CCResult :=
  ⟨false, true, true, 0, 0, "", "", "", "", "", "", "", "", "", ""⟩

/-- The CC1 violation test of the inner state loop at one state. -/
def cc1ViolAt (step : List (List Int)) (e1 e2 : Nat) (sid : Nat) : Bool :=
  let s1 := (step.getD e1 []).getD sid (-1)
  let s2 := (step.getD e2 []).getD sid (-1)
  if s1 = -1 || s2 = -1 then false
  else
    let r12 := (step.getD e2 []).getD s1.toNat (-1)
    let r21 := (step.getD e1 []).getD s2.toNat (-1)
    if r12 = -1 || r21 = -1 then false
    else decide (¬ r12 = r21)

/-- The inner state loop of CC1 for one pair: the first violating state. -/
def cc1FirstViol (step : List (List Int)) (total : Int) (e1 e2 : Nat) :
    Option Nat :=
  (List.range total.toNat).find? (cc1ViolAt step e1 e2)

/-- The CC1 pair loop of CheckCC.  The loop conditions carry
result.CC1Pass, so after a failure the remaining pairs are skipped. -/
def cc1Go (schema : Schema) (events : List Event)
    (evtExprs : List (List (Int × Node))) (step : List (List Int))
    (nf : List Int) : List (Nat × Nat) → CCResult → CCResult
  | [], acc => acc
  | (e1, e2) :: rest, acc =>
    if !acc.cc1Pass then acc
    else
      let w1 := eventWrites evtExprs e1
      let w2 := eventWrites evtExprs e2
      let r1 := eventReads schema (events.getD e1 ⟨"", "", []⟩)
      let r2 := eventReads schema (events.getD e2 ⟨"", "", []⟩)
      if !isIndependentW w1 r1 w2 r2 then
        cc1Go schema events evtExprs step nf rest
          { acc with dependentSkipped := acc.dependentSkipped + 1 }
      else
        let acc1 := { acc with pairsChecked := acc.pairsChecked + 1 }
        match cc1FirstViol step schema.totalLen e1 e2 with
        | none => cc1Go schema events evtExprs step nf rest acc1
        | some sid =>
          let s1 := (step.getD e1 []).getD sid (-1)
          let s2 := (step.getD e2 []).getD sid (-1)
          let r12 := (step.getD e2 []).getD s1.toNat (-1)
          let r21 := (step.getD e1 []).getD s2.toNat (-1)
          { acc1 with
            cc1Pass := false
            cc1FailEvent1 := (events.getD e1 ⟨"", "", []⟩).name
            cc1FailEvent2 := (events.getD e2 ⟨"", "", []⟩).name
            cc1FailState :=
              fmtStateGo schema.vars (schema.Decode ((sid : Nat) : Int))
            cc1FailNF1 := fmtStateGo schema.vars (schema.Decode r12)
            cc1FailNF2 := fmtStateGo schema.vars (schema.Decode r21) }

/-- The CC2 violation test at one state for one event. -/
def cc2ViolAt (step : List (List Int)) (nf : List Int) (ei : Nat)
    (sid : Nat) : Bool :=
  let stepRaw := (step.getD ei []).getD sid (-1)
  if stepRaw = -1 then false
  else
    let nfID := nf.getD sid (-1)
    let stepNF := (step.getD ei []).getD nfID.toNat (-1)
    if stepNF = -1 then false
    else decide (¬ stepRaw = stepNF)

/-- The inner state loop of CC2 for one event: first violating state. -/
def cc2FirstViol (step : List (List Int)) (nf : List Int) (total : Int)
    (ei : Nat) : Option Nat :=
  (List.range total.toNat).find? (cc2ViolAt step nf ei)

/-- The CC2 event loop of CheckCC. -/
def cc2Go (schema : Schema) (events : List Event)
    (step : List (List Int)) (nf : List Int) :
    List Nat → CCResult → CCResult
  | [], acc => acc
  | ei :: rest, acc =>
    if !acc.cc2Pass then acc
    else
      match cc2FirstViol step nf schema.totalLen ei with
      | none => cc2Go schema events step nf rest acc
      | some sid =>
        let stepRaw := (step.getD ei []).getD sid (-1)
        let nfID := nf.getD sid (-1)
        let stepNF := (step.getD ei []).getD nfID.toNat (-1)
        { acc with
          cc2Pass := false
          cc2FailEvent := (events.getD ei ⟨"", "", []⟩).name
          cc2FailState :=
            fmtStateGo schema.vars (schema.Decode ((sid : Nat) : Int))
          cc2FailNFState := fmtStateGo schema.vars (schema.Decode nfID)
          cc2FailNF1 := fmtStateGo schema.vars (schema.Decode stepRaw)
          cc2FailNF2 := fmtStateGo schema.vars (schema.Decode stepNF) }

/-- The ordered pair list of the CC1 double loop: all (e1, e2) with
e1 < e2 < n, e1-major. -/
def eventPairs (n : Nat) : List (Nat × Nat) :=
  (List.range n).flatMap (fun e1 =>
    ((List.range n).filter (fun e2 => e1 < e2)).map (fun e2 => (e1, e2)))

/-- CheckCC from the verify package (worker). -/
def CheckCCW (schema : Schema) (events : List Event)
    (evtExprs : List (List (Int × Node))) (step : List (List Int))
    (nf : List Int) : CCResult :=
  let r1 := cc1Go schema events evtExprs step nf
    (eventPairs events.length) ccInit
  let r2 := cc2Go schema events step nf (List.range events.length) r1
  { r2 with ccPass := r2.cc1Pass && r2.cc2Pass }

/-- CheckCC from the verify package. -/
def CheckCC (cr : CompiledRegistry) (t : Tables) : CCResult :=
  CheckCCW cr.schema cr.reg.events cr.evtExprs t.step t.nf

/-! ## main.go : the verification pipeline -/

/-- The observable outcome of a run of main (after a registry was
loaded): each abort point of main.go is a constructor, and a completed
run reports the WFC result, the CC result and the exit status. -/
inductive RunOutcome where
  | compileError (e : String)
  | buildError (e : String)
  | wfcInternalError (e : String)
  | report (wfcPass : Bool) (maxDepth : Int) (badState : String)
      (cc : CCResult) (exitOk : Bool)
deriving DecidableEq, Repr

/-- The pipeline of main.go from Compile onward: compile, build tables,
check WFC, check CC, verdict.  Each error aborts the run at that
point. -/
def runVerify (reg : Registry) : RunOutcome :=
  match Compile reg with
  | Except.error e => RunOutcome.compileError e
  | Except.ok cr =>
    match BuildTables cr with
    | Except.error e => RunOutcome.buildError e
    | Except.ok t =>
      match CheckWFC cr t with
      | Except.error e => RunOutcome.wfcInternalError e
      | Except.ok (wfcPass, maxDepth, badState) =>
        let cc := CheckCC cr t
        RunOutcome.report wfcPass maxDepth badState cc
          (wfcPass && cc.ccPass)

/-! ## Claim C8 : the state codec is a bijection -/

/-- C8.  For every schema with all variable domain sizes positive, every
state ID in [0, total) re-encodes to itself after decoding, and every
state vector whose components lie in their variables' domains decodes
back to itself after encoding. -/
theorem c8_codec_bijection (vars : List VarDef)
    (hpos : ∀ v ∈ vars, 0 < v.size) :
    (∀ sid : Int, 0 ≤ sid → sid < (NewSchema vars).totalLen →
      (NewSchema vars).Encode ((NewSchema vars).Decode sid) = sid) ∧
    (∀ st : List Int, inDomain vars st = true →
      (NewSchema vars).Decode ((NewSchema vars).Encode st) = st) := by
  constructor
  · intro sid h0 h1
    simp only [NewSchema, Schema.Encode, Schema.Decode] at h1 ⊢
    exact encode_decodeGo vars sid hpos h0 h1
  · intro st hd
    simp only [NewSchema, Schema.Encode, Schema.Decode]
    exact decode_encodeGo vars st hpos hd

/-- A sample two-variable schema: a bool and an int with range [-1, 1]. -/
def sampleVars : List VarDef :=
  [⟨"b", VarType.tbool, [], 0, 0, 2⟩, ⟨"n", VarType.tint, [], -1, 1, 3⟩]

/-- Witness for C8 at a concrete schema, state ID and state vector. -/
theorem c8_codec_bijection_witness :
    (NewSchema sampleVars).Encode ((NewSchema sampleVars).Decode 4) = 4 ∧
    (NewSchema sampleVars).Decode ((NewSchema sampleVars).Encode [1, 0]) =
      [1, 0] :=
  ⟨(c8_codec_bijection sampleVars (by decide)).1 4 (by decide) (by decide),
   (c8_codec_bijection sampleVars (by decide)).2 [1, 0] (by decide)⟩

/-! ## Claim C9 : associativity of the comparison operators -/

/-- C9 counterexample.  The claim says Parse rejects a chained
comparison such as a == b == c; in fact Parse accepts it and returns
the left-nested AST (a == b) == c. -/
theorem c9_chained_comparison_accepted :
    Parse "a == b == c" =
      Except.ok (Node.eeq (Node.eeq (Node.evar "a") (Node.evar "b"))
        (Node.evar "c")) := by
  rfl

/-- C9 as amended.  The comparison operators are left-associative, like
every other binary operator: a chain of two identical comparison
operators over identifiers parses to the left-nested AST instead of
being rejected.  Stated over token streams for arbitrary identifier
names. -/
theorem c9_comparisons_left_associative (a b c : String) :
    (parseTokens [⟨TokenType.tIdent, a, 0⟩, ⟨TokenType.tEq, "==", 2⟩,
        ⟨TokenType.tIdent, b, 0⟩, ⟨TokenType.tEq, "==", 0⟩,
        ⟨TokenType.tIdent, c, 0⟩, ⟨TokenType.tEof, "", 0⟩] =
      Except.ok (Node.eeq (Node.eeq (Node.evar a) (Node.evar b))
        (Node.evar c))) ∧
    (parseTokens [⟨TokenType.tIdent, a, 0⟩, ⟨TokenType.tNeq, "!=", 2⟩,
        ⟨TokenType.tIdent, b, 0⟩, ⟨TokenType.tNeq, "!=", 0⟩,
        ⟨TokenType.tIdent, c, 0⟩, ⟨TokenType.tEof, "", 0⟩] =
      Except.ok (Node.eneq (Node.eneq (Node.evar a) (Node.evar b))
        (Node.evar c))) ∧
    (parseTokens [⟨TokenType.tIdent, a, 0⟩, ⟨TokenType.tLt, "<", 2⟩,
        ⟨TokenType.tIdent, b, 0⟩, ⟨TokenType.tLt, "<", 0⟩,
        ⟨TokenType.tIdent, c, 0⟩, ⟨TokenType.tEof, "", 0⟩] =
      Except.ok (Node.elt (Node.elt (Node.evar a) (Node.evar b))
        (Node.evar c))) ∧
    (parseTokens [⟨TokenType.tIdent, a, 0⟩, ⟨TokenType.tLe, "<=", 2⟩,
        ⟨TokenType.tIdent, b, 0⟩, ⟨TokenType.tLe, "<=", 0⟩,
        ⟨TokenType.tIdent, c, 0⟩, ⟨TokenType.tEof, "", 0⟩] =
      Except.ok (Node.ele (Node.ele (Node.evar a) (Node.evar b))
        (Node.evar c))) ∧
    (parseTokens [⟨TokenType.tIdent, a, 0⟩, ⟨TokenType.tGt, ">", 2⟩,
        ⟨TokenType.tIdent, b, 0⟩, ⟨TokenType.tGt, ">", 0⟩,
        ⟨TokenType.tIdent, c, 0⟩, ⟨TokenType.tEof, "", 0⟩] =
      Except.ok (Node.egt (Node.egt (Node.evar a) (Node.evar b))
        (Node.evar c))) ∧
    (parseTokens [⟨TokenType.tIdent, a, 0⟩, ⟨TokenType.tGe, ">=", 2⟩,
        ⟨TokenType.tIdent, b, 0⟩, ⟨TokenType.tGe, ">=", 0⟩,
        ⟨TokenType.tIdent, c, 0⟩, ⟨TokenType.tEof, "", 0⟩] =
      Except.ok (Node.ege (Node.ege (Node.evar a) (Node.evar b))
        (Node.evar c))) :=
  ⟨rfl, rfl, rfl, rfl, rfl, rfl⟩

/-! ## Claim C7 : the state-space ceiling -/

/-- With no enum variables the literal table builds empty without
error. -/
theorem buildEnumLiteralsAux_no_enum (varNames : List String)
    (lits : List (String × Int)) (vs : List VarDef)
    (h : ∀ v ∈ vs, v.type ≠ VarType.tenum) :
    buildEnumLiteralsAux varNames lits vs = Except.ok lits := by
  induction vs with
  | nil => rfl
  | cons v rest ih =>
    have hv : v.type ≠ VarType.tenum := h v (by simp)
    simp only [buildEnumLiteralsAux, if_pos hv]
    exact ih (fun w hw => h w (by simp [hw]))

/-- A one-integer-variable registry with exactly 1,000,000 states and no
invariants, repairs or events. -/
def regMillion : Registry :=
  ⟨"million", [⟨"n", VarType.tint, [], 1, 1000000, 1000000⟩], [], [], []⟩

/-- A twenty-boolean-variable registry with exactly 1,048,576 states. -/
def regTwoPow20 : Registry :=
  ⟨"big",
    (List.range 20).map (fun i => ⟨"b" ++ toString i, VarType.tbool, [],
      0, 0, 2⟩),
    [], [], []⟩

/-- C7 counterexample.  The claim says a registry with exactly 1,048,576
states is accepted; the code's ceiling is MaxStates = 1,000,000, so a
registry of twenty booleans (2^20 = 1,048,576 states) is rejected. -/
theorem c7_two_pow_20_rejected :
    (NewSchema regTwoPow20.vars).totalLen = 1048576 ∧
    Compile regTwoPow20 =
      Except.error "state space too large: 1048576 (max 1000000)" :=
  ⟨by decide, by rfl⟩

/-- C7 as amended.  Compilation enforces a ceiling of 1,000,000 states
(the code's MaxStates), not 1,048,576: for a registry free of the other
compile errors (no enum variables, no invariants, repairs or events),
Compile succeeds iff the total state count is at most 1,000,000, so a
registry exactly at 1,000,000 states is accepted and any larger one is
rejected. -/
theorem c7_ceiling_is_million (reg : Registry)
    (hv : ∀ v ∈ reg.vars, v.type ≠ VarType.tenum)
    (hinv : reg.invariants = []) (hcomp : reg.compensation = [])
    (hevt : reg.events = []) :
    (∃ cr, Compile reg = Except.ok cr) ↔
      (NewSchema reg.vars).totalLen ≤ 1000000 := by
  constructor
  · intro h
    obtain ⟨cr, hcr⟩ := h
    by_contra hgt
    simp only [Compile] at hcr
    rw [if_pos (by simpa [MaxStates] using hgt)] at hcr
    exact absurd hcr (by simp)
  · intro hle
    simp only [Compile]
    rw [if_neg (by simp only [MaxStates]; omega)]
    have henum : BuildEnumLiterals (NewSchema reg.vars) = Except.ok [] :=
      buildEnumLiteralsAux_no_enum ((NewSchema reg.vars).vars.map VarDef.name)
        [] (NewSchema reg.vars).vars hv
    rw [henum, hinv, hcomp, hevt]
    exact ⟨_, rfl⟩

/-- Witness for C7 as amended: the boundary registry with exactly
1,000,000 states is accepted. -/
theorem c7_ceiling_is_million_witness :
    (NewSchema regMillion.vars).totalLen = 1000000 ∧
    (∃ cr, Compile regMillion = Except.ok cr) :=
  ⟨by decide,
   (c7_ceiling_is_million regMillion (by decide) rfl rfl rfl).mpr
     (by decide)⟩

/-! ## Claim C5 : simultaneity of assignment blocks -/

/-- The value committed into the post-state for a target variable, as a
function of the evaluated right-hand side: bools are stored as 0/1,
enums and ints as the integer itself. -/
def storeVal (v : VarDef) (val : Value) : Int :=
  match v.type with
  | VarType.tbool => if val.bool then 1 else 0
  | VarType.tenum => val.int
  | VarType.tint => val.int

/-- The head step of the applyAssignments loop: given the recursive
facts about the tail applied after setting the head's target, conclude
the three properties for the whole block. -/
theorem applyAssignsGo_spec_cons (schema : Schema)
    (enumLits : List (String × Int)) (st0 : List Int) (i : Int)
    (node : Node) (rest : List (Int × Node)) (post0 post : List Int)
    (v : VarDef) (val : Value)
    (hnotin : ¬ i.toNat ∈ rest.map (fun p => p.1.toNat))
    (hEval : Eval (NewEnv schema st0 enumLits) node = Except.ok val)
    (hVar : schema.vars[i.toNat]? = some v)
    (hib : i.toNat < post0.length)
    (hlen : post.length = (post0.set i.toNat (storeVal v val)).length)
    (htgt : ∀ p ∈ rest, ∃ w wval,
      schema.vars[(p : Int × Node).1.toNat]? = some w ∧
      Eval (NewEnv schema st0 enumLits) p.2 = Except.ok wval ∧
      post[(p : Int × Node).1.toNat]? = some (storeVal w wval))
    (hfr : ∀ j : Nat, (∀ p ∈ rest, (p : Int × Node).1.toNat ≠ j) →
      post[j]? = (post0.set i.toNat (storeVal v val))[j]?) :
    post.length = post0.length ∧
    (∀ p ∈ (i, node) :: rest, ∃ w wval,
      schema.vars[(p : Int × Node).1.toNat]? = some w ∧
      Eval (NewEnv schema st0 enumLits) p.2 = Except.ok wval ∧
      post[(p : Int × Node).1.toNat]? = some (storeVal w wval)) ∧
    (∀ j : Nat, (∀ p ∈ (i, node) :: rest, (p : Int × Node).1.toNat ≠ j) →
      post[j]? = post0[j]?) := by
  refine ⟨by rw [hlen, List.length_set], ?_, ?_⟩
  · intro p hp
    rcases List.mem_cons.mp hp with hhd | htl
    · subst hhd
      refine ⟨v, val, hVar, hEval, ?_⟩
      have hfri : post[i.toNat]? =
          (post0.set i.toNat (storeVal v val))[i.toNat]? := by
        refine hfr i.toNat (fun q hq hcontra => hnotin ?_)
        rw [← hcontra]
        exact List.mem_map.mpr ⟨q, hq, rfl⟩
      rw [hfri, List.getElem?_set, if_pos rfl, if_pos hib]
    · exact htgt p htl
  · intro j hj
    have hfrj : post[j]? =
        (post0.set i.toNat (storeVal v val))[j]? :=
      hfr j (fun q hq => hj q (by simp [hq]))
    rw [hfrj, List.getElem?_set, if_neg (hj (i, node) (by simp))]

theorem applyAssignsGo_spec (schema : Schema)
    (enumLits : List (String × Int)) (st0 : List Int)
    (assigns : List (Int × Node)) (post0 post : List Int)
    (hnodup : (assigns.map (fun p => p.1.toNat)).Nodup)
    (hbound : ∀ p ∈ assigns, (p : Int × Node).1.toNat < post0.length)
    (hok : applyAssignsGo schema enumLits st0 assigns post0 =
      Except.ok post) :
    post.length = post0.length ∧
    (∀ p ∈ assigns, ∃ v val,
      schema.vars[(p : Int × Node).1.toNat]? = some v ∧
      Eval (NewEnv schema st0 enumLits) p.2 = Except.ok val ∧
      post[(p : Int × Node).1.toNat]? = some (storeVal v val)) ∧
    (∀ j : Nat, (∀ p ∈ assigns, (p : Int × Node).1.toNat ≠ j) →
      post[j]? = post0[j]?) := by
  induction assigns generalizing post0 with
  | nil =>
    simp only [applyAssignsGo] at hok
    cases hok
    exact ⟨rfl, by simp, fun j _ => rfl⟩
  | cons hd rest ih =>
    obtain ⟨i, node⟩ := hd
    simp only [List.map_cons, List.nodup_cons] at hnodup
    have hib : i.toNat < post0.length := hbound (i, node) (by simp)
    simp only [applyAssignsGo] at hok
    split at hok
    · exact absurd hok (by simp)
    rename_i val hEval
    split at hok
    · exact absurd hok (by simp)
    split at hok
    · exact absurd hok (by simp)
    rename_i v hVar
    split at hok
    · -- bool target
      rename_i hT
      split at hok
      · exact absurd hok (by simp)
      · have hok' : applyAssignsGo schema enumLits st0 rest
            (post0.set i.toNat (storeVal v val)) = Except.ok post := by
          have hsv : storeVal v val =
              (if val.bool = true then (1 : Int) else 0) := by
            simp only [storeVal, hT]
          rw [hsv]
          exact hok
        have ihr := ih (post0.set i.toNat (storeVal v val)) hnodup.2
          (fun p hp => by
            rw [List.length_set]
            exact hbound p (by simp [hp])) hok'
        exact applyAssignsGo_spec_cons schema enumLits st0 i node rest
          post0 post v val hnodup.1 hEval hVar hib (by rw [ihr.1])
          ihr.2.1 ihr.2.2
    · -- enum target
      rename_i hT
      split at hok
      · exact absurd hok (by simp)
      split at hok
      · exact absurd hok (by simp)
      · have hok' : applyAssignsGo schema enumLits st0 rest
            (post0.set i.toNat (storeVal v val)) = Except.ok post := by
          have hsv : storeVal v val = val.int := by
            simp only [storeVal, hT]
          rw [hsv]
          exact hok
        have ihr := ih (post0.set i.toNat (storeVal v val)) hnodup.2
          (fun p hp => by
            rw [List.length_set]
            exact hbound p (by simp [hp])) hok'
        exact applyAssignsGo_spec_cons schema enumLits st0 i node rest
          post0 post v val hnodup.1 hEval hVar hib (by rw [ihr.1])
          ihr.2.1 ihr.2.2
    · -- int target
      rename_i hT
      split at hok
      · exact absurd hok (by simp)
      split at hok
      · exact absurd hok (by simp)
      · have hok' : applyAssignsGo schema enumLits st0 rest
            (post0.set i.toNat (storeVal v val)) = Except.ok post := by
          have hsv : storeVal v val = val.int := by
            simp only [storeVal, hT]
          rw [hsv]
          exact hok
        have ihr := ih (post0.set i.toNat (storeVal v val)) hnodup.2
          (fun p hp => by
            rw [List.length_set]
            exact hbound p (by simp [hp])) hok'
        exact applyAssignsGo_spec_cons schema enumLits st0 i node rest
          post0 post v val hnodup.1 hEval hVar hib (by rw [ihr.1])
          ihr.2.1 ihr.2.2

/-- C5.  Applying a block of assignments to a pre-state is simultaneous:
whenever applyAssignments returns a post-state, every targeted variable
holds its right-hand side evaluated against the pre-state (not against
any partially updated state), and every variable not targeted keeps its
pre-state value. -/
theorem c5_simultaneous_assignments (schema : Schema)
    (enumLits : List (String × Int)) (assigns : List (Int × Node))
    (st post : List Int)
    (hnodup : (assigns.map (fun p => p.1.toNat)).Nodup)
    (hbound : ∀ p ∈ assigns, (p : Int × Node).1.toNat < st.length)
    (hok : applyAssignments schema enumLits assigns st = Except.ok post) :
    post.length = st.length ∧
    (∀ p ∈ assigns, ∃ v val,
      schema.vars[(p : Int × Node).1.toNat]? = some v ∧
      Eval (NewEnv schema st enumLits) p.2 = Except.ok val ∧
      post[(p : Int × Node).1.toNat]? = some (storeVal v val)) ∧
    (∀ j : Nat, (∀ p ∈ assigns, (p : Int × Node).1.toNat ≠ j) →
      post[j]? = st[j]?) :=
  applyAssignsGo_spec schema enumLits st assigns st post hnodup hbound hok

/-- A two-int-variable schema and a swap-like block whose right-hand
sides read each other's target: a := b + 1 and b := a + 2. -/
def swapVars : List VarDef :=
  [⟨"a", VarType.tint, [], 0, 5, 6⟩, ⟨"b", VarType.tint, [], 0, 5, 6⟩]

/-- The cross-reading assignment block for the C5 witness. -/
def swapAssigns : List (Int × Node) :=
  [(0, Node.eadd (Node.evar "b") (Node.litInt 1)),
   (1, Node.eadd (Node.evar "a") (Node.litInt 2))]

/-- Witness for C5: at pre-state [0, 0] the block yields [1, 2] — each
right-hand side read the pre-state, not the partial update. -/
theorem c5_simultaneous_assignments_witness :
    applyAssignments (NewSchema swapVars) [] swapAssigns
        ([0, 0] : List Int) = Except.ok ([1, 2] : List Int) ∧
    (([1, 2] : List Int).length = ([0, 0] : List Int).length ∧
    (∀ p ∈ swapAssigns, ∃ v val,
      (NewSchema swapVars).vars[(p : Int × Node).1.toNat]? = some v ∧
      Eval (NewEnv (NewSchema swapVars) ([0, 0] : List Int) []) p.2 =
        Except.ok val ∧
      ([1, 2] : List Int)[(p : Int × Node).1.toNat]? =
        some (storeVal v val)) ∧
    (∀ j : Nat, (∀ p ∈ swapAssigns, (p : Int × Node).1.toNat ≠ j) →
      ([1, 2] : List Int)[j]? = ([0, 0] : List Int)[j]?)) :=
  ⟨by rfl,
   c5_simultaneous_assignments (NewSchema swapVars) [] swapAssigns
     ([0, 0] : List Int) ([1, 2] : List Int) (by decide)
     (by intro p hp; fin_cases hp <;> decide) (by rfl)⟩

/-! ## Groundwork : listMapE, well-formed variables, domain preservation -/

theorem listMapE_ok_length {α β : Type} (f : α → Except String β)
    (l : List α) (ys : List β) (h : listMapE f l = Except.ok ys) :
    ys.length = l.length := by
  induction l generalizing ys with
  | nil => simp only [listMapE] at h; cases h; rfl
  | cons a rest ih =>
    simp only [listMapE] at h
    split at h
    · exact absurd h (by simp)
    rename_i b hb
    split at h
    · exact absurd h (by simp)
    rename_i bs hbs
    cases h
    simp [ih bs hbs]

theorem listMapE_ok_get {α β : Type} (f : α → Except String β)
    (l : List α) (ys : List β) (h : listMapE f l = Except.ok ys)
    (i : Nat) (a : α) (ha : l[i]? = some a) :
    ∃ b, ys[i]? = some b ∧ f a = Except.ok b := by
  induction l generalizing ys i with
  | nil => simp at ha
  | cons x rest ih =>
    simp only [listMapE] at h
    split at h
    · exact absurd h (by simp)
    rename_i b hb
    split at h
    · exact absurd h (by simp)
    rename_i bs hbs
    cases h
    cases i with
    | zero =>
      simp only [List.getElem?_cons_zero] at ha
      cases ha
      exact ⟨b, by simp, hb⟩
    | succ k =>
      simp only [List.getElem?_cons_succ] at ha ⊢
      exact ih bs hbs k ha

theorem listMapE_ok_of_all {α β : Type} (f : α → Except String β)
    (l : List α) (h : ∀ a ∈ l, ∃ b, f a = Except.ok b) :
    ∃ ys, listMapE f l = Except.ok ys := by
  induction l with
  | nil => exact ⟨[], rfl⟩
  | cons a rest ih =>
    obtain ⟨b, hb⟩ := h a (by simp)
    obtain ⟨bs, hbs⟩ := ih (fun x hx => h x (by simp [hx]))
    exact ⟨b :: bs, by simp only [listMapE, hb, hbs]⟩

/-- A well-formed variable definition, as produced by the registry
parser: positive domain size, with size 2 for bools and the range width
for ints. -/
def wfVar (v : VarDef) : Prop :=
  0 < v.size ∧ (v.type = VarType.tbool → v.size = 2) ∧
    (v.type = VarType.tint → v.size = v.max - v.min + 1)

instance (v : VarDef) : Decidable (wfVar v) := by
  unfold wfVar
  infer_instance

/-- The fact established by the range checks of applyAssignments for the
value committed to a target of each type. -/
def rangeOkVar (v : VarDef) (x : Int) : Prop :=
  match v.type with
  | VarType.tbool => x = 0 ∨ x = 1
  | VarType.tenum => 0 ≤ x ∧ x < v.size
  | VarType.tint => v.min ≤ x ∧ x ≤ v.max

theorem inDomainVar_of_rangeOk (v : VarDef) (x : Int) (hwf : wfVar v)
    (h : rangeOkVar v x) : inDomainVar v x = true := by
  obtain ⟨hpos, hb, hi⟩ := hwf
  simp only [inDomainVar, Bool.and_eq_true, decide_eq_true_eq]
  cases hT : v.type with
  | tbool =>
    simp only [rangeOkVar, hT] at h
    have h2 := hb hT
    have ha : adjustVal v x = x := by simp [adjustVal, hT]
    rw [ha]
    rcases h with h0 | h1 <;> constructor <;> omega
  | tenum =>
    simp only [rangeOkVar, hT] at h
    have ha : adjustVal v x = x := by simp [adjustVal, hT]
    rw [ha]
    exact h
  | tint =>
    simp only [rangeOkVar, hT] at h
    have h2 := hi hT
    have ha : adjustVal v x = x - v.min := by simp [adjustVal, hT]
    rw [ha]
    constructor <;> omega

/-- Pointwise characterization of inDomain. -/
theorem inDomain_iff (vars : List VarDef) (st : List Int) :
    inDomain vars st = true ↔
      st.length = vars.length ∧
      (∀ (j : Nat) (v : VarDef) (x : Int), vars[j]? = some v →
        st[j]? = some x → inDomainVar v x = true) := by
  induction vars generalizing st with
  | nil =>
    cases st with
    | nil => simp [inDomain]
    | cons x xs => simp [inDomain]
  | cons v vs ih =>
    cases st with
    | nil => simp [inDomain]
    | cons x xs =>
      simp only [inDomain, Bool.and_eq_true, List.length_cons]
      rw [ih xs]
      constructor
      · rintro ⟨h1, h2, h3⟩
        refine ⟨by omega, ?_⟩
        intro j w y hw hy
        cases j with
        | zero =>
          simp only [List.getElem?_cons_zero] at hw hy
          cases hw; cases hy; exact h1
        | succ k =>
          simp only [List.getElem?_cons_succ] at hw hy
          exact h3 k w y hw hy
      · rintro ⟨h1, h2⟩
        refine ⟨h2 0 v x (by simp) (by simp), by omega, ?_⟩
        intro j w y hw hy
        exact h2 (j + 1) w y (by simpa using hw) (by simpa using hy)

theorem inDomain_set (vars : List VarDef) (st : List Int) (idx : Nat)
    (v : VarDef) (x : Int) (hst : inDomain vars st = true)
    (hv : vars[idx]? = some v) (hx : inDomainVar v x = true) :
    inDomain vars (st.set idx x) = true := by
  rw [inDomain_iff] at hst ⊢
  refine ⟨by rw [List.length_set]; exact hst.1, ?_⟩
  intro j w y hw hy
  rw [List.getElem?_set] at hy
  by_cases hij : idx = j
  · subst hij
    rw [if_pos rfl] at hy
    by_cases hlt : idx < st.length
    · rw [if_pos hlt] at hy
      cases hy
      rw [hv] at hw
      cases hw
      exact hx
    · rw [if_neg hlt] at hy
      exact absurd hy (by simp)
  · rw [if_neg hij] at hy
    exact hst.2 j w y hw hy

/-- applyAssignsGo sends in-domain accumulator states to in-domain
states, for well-formed variables: every committed value has passed the
per-type range check. -/
theorem applyAssignsGo_preserves_inDomain (schema : Schema)
    (enumLits : List (String × Int)) (st0 : List Int)
    (assigns : List (Int × Node)) (post0 post : List Int)
    (hwf : ∀ v ∈ schema.vars, wfVar v)
    (hpost0 : inDomain schema.vars post0 = true)
    (hok : applyAssignsGo schema enumLits st0 assigns post0 =
      Except.ok post) :
    inDomain schema.vars post = true := by
  induction assigns generalizing post0 with
  | nil => simp only [applyAssignsGo] at hok; cases hok; exact hpost0
  | cons hd rest ih =>
    obtain ⟨i, node⟩ := hd
    simp only [applyAssignsGo] at hok
    split at hok
    · exact absurd hok (by simp)
    rename_i val hEval
    split at hok
    · exact absurd hok (by simp)
    split at hok
    · exact absurd hok (by simp)
    rename_i v hVar
    have hwfv : wfVar v := hwf v (List.getElem?_mem hVar)
    split at hok
    · rename_i hT
      split at hok
      · exact absurd hok (by simp)
      · refine ih (post0.set i.toNat (if val.bool then 1 else 0)) ?_ hok
        refine inDomain_set _ _ _ v _ hpost0 hVar ?_
        refine inDomainVar_of_rangeOk v _ hwfv ?_
        simp only [rangeOkVar, hT]
        by_cases hb : val.bool <;> simp [hb]
    · rename_i hT
      split at hok
      · exact absurd hok (by simp)
      split at hok
      · exact absurd hok (by simp)
      · rename_i hr
        refine ih (post0.set i.toNat val.int) ?_ hok
        refine inDomain_set _ _ _ v _ hpost0 hVar ?_
        refine inDomainVar_of_rangeOk v _ hwfv ?_
        simp only [rangeOkVar, hT]
        push_neg at hr
        exact hr
    · rename_i hT
      split at hok
      · exact absurd hok (by simp)
      split at hok
      · exact absurd hok (by simp)
      · rename_i hr
        refine ih (post0.set i.toNat val.int) ?_ hok
        refine inDomain_set _ _ _ v _ hpost0 hVar ?_
        refine inDomainVar_of_rangeOk v _ hwfv ?_
        simp only [rangeOkVar, hT]
        push_neg at hr
        exact hr

/-- Schema-level corollaries of the codec lemmas, for a schema built by
NewSchema. -/
theorem decode_inDomain_schema (s : Schema)
    (hsch : s = NewSchema s.vars)
    (hpos : ∀ v ∈ s.vars, 0 < v.size) (sid : Int) (h0 : 0 ≤ sid)
    (h1 : sid < s.totalLen) :
    inDomain s.vars (s.Decode sid) = true := by
  conv at h1 => rw [hsch]
  conv => rw [hsch]
  exact decodeGo_inDomain s.vars sid hpos h0 h1

theorem encode_range_schema (s : Schema) (hsch : s = NewSchema s.vars)
    (hpos : ∀ v ∈ s.vars, 0 < v.size) (st : List Int)
    (hd : inDomain s.vars st = true) :
    0 ≤ s.Encode st ∧ s.Encode st < s.totalLen := by
  conv => rw [hsch]
  exact encodeGo_bounds s.vars st hpos hd

theorem wfVar_pos {v : VarDef} (h : wfVar v) : 0 < v.size := h.1

/-! ## Groundwork : the normalization loop -/

theorem fireFirstAux_some_inDomain (schema : Schema)
    (enumLits : List (String × Int)) (invNames : List String)
    (repExprs : List (List (Int × Node))) (st : List Int)
    (hwf : ∀ v ∈ schema.vars, wfVar v)
    (hst : inDomain schema.vars st = true) :
    ∀ (i : Nat) (es : List Node) (newSt : List Int),
      fireFirstAux schema enumLits invNames repExprs st i es =
        Except.ok (some newSt) →
      inDomain schema.vars newSt = true := by
  intro i es
  induction es generalizing i with
  | nil => intro newSt h; simp only [fireFirstAux] at h; cases h
  | cons e rest ih =>
    intro newSt h
    simp only [fireFirstAux] at h
    split at h
    · exact absurd h (by simp)
    rename_i v hv
    split at h
    · exact ih (i + 1) newSt h
    · split at h
      · exact absurd h (by simp)
      rename_i assigns hassigns
      split at h
      · exact absurd h (by simp)
      rename_i st2 hnew
      have heq2 : st2 = newSt := by simpa using h
      rw [heq2] at hnew
      exact applyAssignsGo_preserves_inDomain schema enumLits st assigns
        st newSt hwf hst hnew

theorem evalValid_false_fireFirst_not_none (schema : Schema)
    (enumLits : List (String × Int)) (invNames : List String)
    (repExprs : List (List (Int × Node))) (st : List Int) :
    ∀ (es : List Node) (i : Nat),
      evalValidW schema enumLits st es = Except.ok false →
      fireFirstAux schema enumLits invNames repExprs st i es ≠
        Except.ok none := by
  intro es
  induction es with
  | nil => intro i hval; simp [evalValidW] at hval
  | cons e rest ih =>
    intro i hval
    simp only [evalValidW] at hval
    simp only [fireFirstAux]
    split at hval
    · simp
    rename_i v hv
    split at hval
    · rename_i hvt
      rw [if_pos hvt]
      exact ih (i + 1) hval
    · rename_i hvt
      rw [if_neg hvt]
      split
      · simp
      · split <;> simp

theorem computeNFAux_ok_range (schema : Schema)
    (enumLits : List (String × Int)) (invNames : List String)
    (invExprs : List Node) (repExprs : List (List (Int × Node)))
    (valid : List Bool) (sid0 : Int)
    (hsch : schema = NewSchema schema.vars)
    (hwf : ∀ v ∈ schema.vars, wfVar v) :
    ∀ (fuel : Nat) (cur res : Int),
      0 ≤ cur → cur < schema.totalLen →
      computeNFAux schema enumLits invNames invExprs repExprs valid sid0
        fuel cur = Except.ok res →
      0 ≤ res ∧ res < schema.totalLen := by
  intro fuel
  induction fuel with
  | zero => intro cur res h0 h1 h; exact absurd h (by simp [computeNFAux])
  | succ n ih =>
    intro cur res h0 h1 h
    simp only [computeNFAux] at h
    split at h
    · cases h; exact ⟨h0, h1⟩
    · split at h
      · exact absurd h (by simp)
      · cases h; exact ⟨h0, h1⟩
      · rename_i newSt hnew
        have hdom : inDomain schema.vars (schema.Decode cur) = true :=
          decode_inDomain_schema schema hsch
            (fun v hv => wfVar_pos (hwf v hv)) cur h0 h1
        have hnewdom : inDomain schema.vars newSt = true :=
          fireFirstAux_some_inDomain schema enumLits invNames repExprs
            (schema.Decode cur) hwf hdom 0 invExprs newSt hnew
        have henc := encode_range_schema schema hsch
          (fun v hv => wfVar_pos (hwf v hv)) newSt hnewdom
        exact ih (schema.Encode newSt) res henc.1 henc.2 h

theorem computeNFAux_ok_repairDepth (schema : Schema)
    (enumLits : List (String × Int)) (invNames : List String)
    (invExprs : List Node) (repExprs : List (List (Int × Node)))
    (valid : List Bool) (sid0 : Int) :
    ∀ (fuel : Nat) (cur res : Int),
      computeNFAux schema enumLits invNames invExprs repExprs valid sid0
        fuel cur = Except.ok res →
      ∀ depth : Int, ∃ d,
        repairDepthAux schema enumLits invNames invExprs repExprs valid
          fuel depth cur = Except.ok d := by
  intro fuel
  induction fuel with
  | zero => intro cur res h; exact absurd h (by simp [computeNFAux])
  | succ n ih =>
    intro cur res h depth
    simp only [computeNFAux] at h
    simp only [repairDepthAux]
    split at h
    · rename_i hval
      rw [if_pos hval]
      exact ⟨depth, rfl⟩
    · rename_i hval
      rw [if_neg hval]
      split at h
      · exact absurd h (by simp)
      · exact ⟨depth, rfl⟩
      · rename_i newSt hfire
        exact ih (schema.Encode newSt) res h (depth + 1)

/-! ## Groundwork : reading off the built tables -/

theorem wrapErr_ok {β : Type} (w : String) (r : Except String β) (b : β) :
    wrapErr w r = Except.ok b ↔ r = Except.ok b := by
  cases r <;> simp [wrapErr]

theorem buildTables_ok_parts (cr : CompiledRegistry) (t : Tables)
    (h : BuildTables cr = Except.ok t) :
    buildValidW cr.schema cr.enumLiterals cr.invExprs =
      Except.ok t.valid ∧
    buildNFW cr.schema cr.enumLiterals
      (cr.reg.invariants.map Invariant.name) cr.invExprs cr.repExprs
      t.valid = Except.ok t.nf ∧
    buildStepW cr.schema cr.enumLiterals cr.evtGuards cr.evtExprs t.nf
      cr.reg.events.length = Except.ok t.step := by
  simp only [BuildTables, buildTablesW] at h
  split at h
  · exact absurd h (by simp)
  rename_i valid hv
  split at h
  · exact absurd h (by simp)
  rename_i nf hn
  split at h
  · exact absurd h (by simp)
  rename_i step hs
  cases h
  exact ⟨hv, hn, hs⟩

theorem buildValidW_spec (schema : Schema)
    (enumLits : List (String × Int)) (invExprs : List Node)
    (valid : List Bool)
    (h : buildValidW schema enumLits invExprs = Except.ok valid) :
    valid.length = schema.totalLen.toNat ∧
    ∀ sid : Nat, sid < schema.totalLen.toNat → ∃ b,
      valid[sid]? = some b ∧
      evalValidW schema enumLits (schema.Decode ((sid : Nat) : Int))
        invExprs = Except.ok b := by
  constructor
  · rw [listMapE_ok_length _ _ _ h, List.length_range]
  · intro sid hsid
    obtain ⟨b, hb, hf⟩ := listMapE_ok_get _ _ _ h sid sid
      (by rw [List.getElem?_range hsid])
    rw [wrapErr_ok] at hf
    exact ⟨b, hb, hf⟩

theorem buildNFW_spec (schema : Schema) (enumLits : List (String × Int))
    (invNames : List String) (invExprs : List Node)
    (repExprs : List (List (Int × Node))) (valid : List Bool)
    (nf : List Int)
    (h : buildNFW schema enumLits invNames invExprs repExprs valid =
      Except.ok nf) :
    nf.length = schema.totalLen.toNat ∧
    ∀ sid : Nat, sid < schema.totalLen.toNat → ∃ x,
      nf[sid]? = some x ∧
      computeNFW schema enumLits invNames invExprs repExprs valid
        ((sid : Nat) : Int) = Except.ok x := by
  constructor
  · rw [listMapE_ok_length _ _ _ h, List.length_range]
  · intro sid hsid
    obtain ⟨x, hx, hf⟩ := listMapE_ok_get _ _ _ h sid sid
      (by rw [List.getElem?_range hsid])
    rw [wrapErr_ok] at hf
    exact ⟨x, hx, hf⟩

theorem buildStepW_spec (schema : Schema) (enumLits : List (String × Int))
    (evtGuards : List (Option Node)) (evtExprs : List (List (Int × Node)))
    (nf : List Int) (numEvts : Nat) (step : List (List Int))
    (h : buildStepW schema enumLits evtGuards evtExprs nf numEvts =
      Except.ok step) :
    step.length = numEvts ∧
    ∀ ei : Nat, ei < numEvts → ∃ row,
      step[ei]? = some row ∧ row.length = schema.totalLen.toNat ∧
      ∀ sid : Nat, sid < schema.totalLen.toNat → ∃ x,
        row[sid]? = some x ∧
        stepCellW schema enumLits evtGuards evtExprs nf ei sid =
          Except.ok x := by
  constructor
  · rw [listMapE_ok_length _ _ _ h, List.length_range]
  · intro ei hei
    obtain ⟨row, hrow, hf⟩ := listMapE_ok_get _ _ _ h ei ei
      (by rw [List.getElem?_range hei])
    refine ⟨row, hrow, ?_, ?_⟩
    · rw [listMapE_ok_length _ _ _ hf, List.length_range]
    · intro sid hsid
      exact listMapE_ok_get _ _ _ hf sid sid
        (by rw [List.getElem?_range hsid])

/-! ## Claim C4 : Step is -1 exactly on false guards -/

theorem stepCellW_neg1_iff (schema : Schema)
    (enumLits : List (String × Int)) (evtGuards : List (Option Node))
    (evtExprs : List (List (Int × Node))) (nf : List Int) (ei sid : Nat)
    (hsch : schema = NewSchema schema.vars)
    (hwf : ∀ v ∈ schema.vars, wfVar v)
    (hsid : sid < schema.totalLen.toNat)
    (hnf : nf.length = schema.totalLen.toNat)
    (hnfpos : ∀ idx : Nat, idx < schema.totalLen.toNat → ∀ y : Int,
      nf[idx]? = some y → 0 ≤ y)
    (x : Int)
    (hok : stepCellW schema enumLits evtGuards evtExprs nf ei sid =
      Except.ok x) :
    x = -1 ↔
      evalGuardW schema enumLits evtGuards ei
        (schema.Decode ((sid : Nat) : Int)) = Except.ok false := by
  simp only [stepCellW] at hok
  split at hok
  · exact absurd hok (by simp)
  rename_i enabled hen
  have hguard : evalGuardW schema enumLits evtGuards ei
      (schema.Decode ((sid : Nat) : Int)) = Except.ok enabled :=
    (wrapErr_ok _ _ _).mp hen
  cases enabled with
  | false =>
    simp only [Bool.not_false, if_pos rfl] at hok
    cases hok
    simp [hguard]
  | true =>
    simp only [Bool.not_true] at hok
    rw [if_neg (by simp)] at hok
    split at hok
    · exact absurd hok (by simp)
    rename_i post hpost
    have happ : applyAssignments schema enumLits (evtExprs.getD ei [])
        (schema.Decode ((sid : Nat) : Int)) = Except.ok post :=
      (wrapErr_ok _ _ _).mp hpost
    have hsidI : ((sid : Nat) : Int) < schema.totalLen := by omega
    have hdom : inDomain schema.vars
        (schema.Decode ((sid : Nat) : Int)) = true :=
      decode_inDomain_schema schema hsch
        (fun v hv => wfVar_pos (hwf v hv)) ((sid : Nat) : Int)
        (by omega) hsidI
    have hpostdom : inDomain schema.vars post = true :=
      applyAssignsGo_preserves_inDomain schema enumLits
        (schema.Decode ((sid : Nat) : Int)) (evtExprs.getD ei [])
        (schema.Decode ((sid : Nat) : Int)) post hwf hdom happ
    have henc := encode_range_schema schema hsch
      (fun v hv => wfVar_pos (hwf v hv)) post hpostdom
    have hidx : (schema.Encode post).toNat < nf.length := by
      rw [hnf]; omega
    have hcell : nf.getD (schema.Encode post).toNat (-1) =
        nf.get ⟨(schema.Encode post).toNat, hidx⟩ := by
      rw [List.getD_eq_getElem?_getD, List.getElem?_eq_getElem hidx]
      rfl
    have hge : 0 ≤ nf.get ⟨(schema.Encode post).toNat, hidx⟩ :=
      hnfpos (schema.Encode post).toNat (by omega) _
        (List.getElem?_eq_getElem hidx)
    rw [hcell] at hok
    cases hok
    constructor
    · intro hx
      omega
    · intro hgf
      rw [hguard] at hgf
      exact absurd hgf (by simp)

/-- C4.  For a compiled registry whose schema is well formed and whose
BuildTables call returned without error: for every event index and every
state ID, the Step cell is -1 exactly when the event's guard evaluates
to false at that state; in particular an event with no guard never has a
-1 Step entry. -/
theorem c4_step_neg1_iff_guard_false (cr : CompiledRegistry) (t : Tables)
    (hsch : cr.schema = NewSchema cr.schema.vars)
    (hwf : ∀ v ∈ cr.schema.vars, wfVar v)
    (hbt : BuildTables cr = Except.ok t)
    (ei sid : Nat) (hei : ei < cr.reg.events.length)
    (hsid : sid < cr.schema.totalLen.toNat) :
    ∃ row x, t.step[ei]? = some row ∧ row[sid]? = some x ∧
      (x = -1 ↔
        evalGuardW cr.schema cr.enumLiterals cr.evtGuards ei
          (cr.schema.Decode ((sid : Nat) : Int)) = Except.ok false) ∧
      (cr.evtGuards[ei]? = some none → x ≠ -1) := by
  obtain ⟨hv, hn, hs⟩ := buildTables_ok_parts cr t hbt
  obtain ⟨hnlen, hnget⟩ := buildNFW_spec _ _ _ _ _ _ _ hn
  obtain ⟨hslen, hsget⟩ := buildStepW_spec _ _ _ _ _ _ _ hs
  obtain ⟨row, hrow, hrowlen, hcells⟩ := hsget ei hei
  obtain ⟨x, hx, hcell⟩ := hcells sid hsid
  have hnfpos : ∀ idx : Nat, idx < cr.schema.totalLen.toNat →
      ∀ y : Int, t.nf[idx]? = some y → 0 ≤ y := by
    intro idx hidx y hy
    obtain ⟨z, hz, hcnf⟩ := hnget idx hidx
    rw [hy] at hz
    cases hz
    have := computeNFAux_ok_range cr.schema cr.enumLiterals
      (cr.reg.invariants.map Invariant.name) cr.invExprs cr.repExprs
      t.valid ((idx : Nat) : Int) hsch hwf MaxRepairIter ((idx : Nat) : Int) y
      (by omega) (by omega) hcnf
    exact this.1
  have hiff := stepCellW_neg1_iff cr.schema cr.enumLiterals cr.evtGuards
    cr.evtExprs t.nf ei sid hsch hwf hsid hnlen hnfpos x hcell
  refine ⟨row, x, hrow, hx, hiff, ?_⟩
  intro hng hxneg
  have : evalGuardW cr.schema cr.enumLiterals cr.evtGuards ei
      (cr.schema.Decode ((sid : Nat) : Int)) = Except.ok false :=
    hiff.mp hxneg
  simp only [evalGuardW, hng] at this
  exact absurd this (by simp)

/-- A one-boolean registry with one invariant and repair, an unguarded
event and a guarded event, used as the concrete witness system. -/
def toyReg : Registry :=
  ⟨"toy", [⟨"b", VarType.tbool, [], 0, 0, 2⟩],
   [⟨"b_holds", "b"⟩], [⟨"b_holds", [("b", "true")]⟩],
   [⟨"flip", "", [("b", "not b")]⟩, ⟨"setb", "not b", [("b", "true")]⟩]⟩

/-- The compiled form of toyReg, as Compile produces it. -/
def toyCR : CompiledRegistry :=
  ⟨toyReg, NewSchema toyReg.vars, [], [Node.evar "b"],
   [[(0, Node.litBool true)]],
   [none, some (Node.enot (Node.evar "b"))],
   [[(0, Node.enot (Node.evar "b"))], [(0, Node.litBool true)]]⟩

/-- The tables BuildTables computes for toyReg. -/
def toyTables : Tables :=
  ⟨[false, true], [1, 1], [[1, 1], [1, -1]]⟩

theorem compile_toyReg : Compile toyReg = Except.ok toyCR := by rfl

theorem buildTables_toyCR : BuildTables toyCR = Except.ok toyTables := by
  rfl

/-- Witness for C4 at toyReg, unguarded event 0, state 0. -/
theorem c4_step_neg1_iff_guard_false_witness :
    BuildTables toyCR = Except.ok toyTables ∧
    ∃ row x, toyTables.step[0]? = some row ∧ row[0]? = some x ∧
      (x = -1 ↔
        evalGuardW toyCR.schema toyCR.enumLiterals toyCR.evtGuards 0
          (toyCR.schema.Decode ((0 : Nat) : Int)) = Except.ok false) ∧
      (toyCR.evtGuards[0]? = some none → x ≠ -1) :=
  ⟨buildTables_toyCR,
   c4_step_neg1_iff_guard_false toyCR toyTables rfl (by decide)
     buildTables_toyCR 0 0 (by decide) (by decide)⟩

/-! ## Claim C2 : first-match firing -/

/-- The normalization loop as the spec describes it: starting from cur,
if Valid[cur] return cur; otherwise fire the repair of the lowest-index
invariant that evaluates to false, re-encode, and restart the scan; the
returned normal form is the first valid state so reached.  Unlike
computeNFAux it has no fallback for an invalid state at which no
invariant fails (the spec treats that as impossible). -/
def specComputeNFAux (schema : Schema) (enumLits : List (String × Int))
    (invNames : List String) (invExprs : List Node)
    (repExprs : List (List (Int × Node))) (valid : List Bool)
    (sid0 : Int) : Nat → Int → Except String Int
  | 0, _ =>
    Except.error ("compensation did not terminate within 1000 steps from state " ++
      fmtStateGo schema.vars (schema.Decode sid0))
  | fuel + 1, cur =>
    if valid.getD cur.toNat false then Except.ok cur
    else
      match fireFirstAux schema enumLits invNames repExprs
          (schema.Decode cur) 0 invExprs with
      | Except.error e => Except.error e
      | Except.ok none =>
        Except.error "invalid state with no violated invariant"
      | Except.ok (some newSt) =>
        specComputeNFAux schema enumLits invNames invExprs repExprs valid
          sid0 fuel (schema.Encode newSt)

/-- The spec-side normal form with the same iteration cap. -/
def specComputeNFW (schema : Schema) (enumLits : List (String × Int))
    (invNames : List String) (invExprs : List Node)
    (repExprs : List (List (Int × Node))) (valid : List Bool)
    (sid : Int) : Except String Int :=
  specComputeNFAux schema enumLits invNames invExprs repExprs valid sid
    MaxRepairIter sid

theorem specComputeNFAux_ok_valid (schema : Schema)
    (enumLits : List (String × Int)) (invNames : List String)
    (invExprs : List Node) (repExprs : List (List (Int × Node)))
    (valid : List Bool) (sid0 : Int) :
    ∀ (fuel : Nat) (cur res : Int),
      specComputeNFAux schema enumLits invNames invExprs repExprs valid
        sid0 fuel cur = Except.ok res →
      valid.getD res.toNat false = true := by
  intro fuel
  induction fuel with
  | zero =>
    intro cur res h
    exact absurd h (by simp [specComputeNFAux])
  | succ n ih =>
    intro cur res h
    simp only [specComputeNFAux] at h
    split at h
    · rename_i hval
      cases h
      exact hval
    · split at h
      · exact absurd h (by simp)
      · exact absurd h (by simp)
      · rename_i newSt hfire
        exact ih (schema.Encode newSt) res h

theorem computeNFAux_eq_spec (schema : Schema)
    (enumLits : List (String × Int)) (invNames : List String)
    (invExprs : List Node) (repExprs : List (List (Int × Node)))
    (valid : List Bool) (sid0 : Int)
    (hsch : schema = NewSchema schema.vars)
    (hwf : ∀ v ∈ schema.vars, wfVar v)
    (hvalid : buildValidW schema enumLits invExprs = Except.ok valid) :
    ∀ (fuel : Nat) (cur : Int), 0 ≤ cur → cur < schema.totalLen →
      computeNFAux schema enumLits invNames invExprs repExprs valid sid0
        fuel cur =
      specComputeNFAux schema enumLits invNames invExprs repExprs valid
        sid0 fuel cur := by
  intro fuel
  induction fuel with
  | zero => intro cur h0 h1; rfl
  | succ n ih =>
    intro cur h0 h1
    simp only [computeNFAux, specComputeNFAux]
    by_cases hval : valid.getD cur.toNat false = true
    · simp only [if_pos hval]
    · simp only [if_neg hval]
      have hcurN : cur.toNat < schema.totalLen.toNat := by omega
      obtain ⟨b, hb, hev⟩ :=
        (buildValidW_spec schema enumLits invExprs valid hvalid).2
          cur.toNat hcurN
      have hbfalse : b = false := by
        have hget : valid.getD cur.toNat false = b := by
          rw [List.getD_eq_getElem?_getD, hb]
          rfl
        cases b with
        | false => rfl
        | true => rw [hget] at hval; exact absurd rfl hval
      subst hbfalse
      have hcur : ((cur.toNat : Nat) : Int) = cur :=
        Int.toNat_of_nonneg h0
      rw [hcur] at hev
      cases hfire : fireFirstAux schema enumLits invNames repExprs
          (schema.Decode cur) 0 invExprs with
      | error e => simp only [hfire]
      | ok o =>
        cases o with
        | none =>
          exact absurd hfire
            (evalValid_false_fireFirst_not_none schema enumLits invNames
              repExprs (schema.Decode cur) invExprs 0 hev)
        | some newSt =>
          simp only [hfire]
          have hdom : inDomain schema.vars (schema.Decode cur) = true :=
            decode_inDomain_schema schema hsch
              (fun v hv => wfVar_pos (hwf v hv)) cur h0 h1
          have hnewdom : inDomain schema.vars newSt = true :=
            fireFirstAux_some_inDomain schema enumLits invNames repExprs
              (schema.Decode cur) hwf hdom 0 invExprs newSt hfire
          have henc := encode_range_schema schema hsch
            (fun v hv => wfVar_pos (hwf v hv)) newSt hnewdom
          exact ih (schema.Encode newSt) henc.1 henc.2

/-- C2.  computeNF implements exactly the spec's first-match firing
loop: for every state in range, computeNF agrees with the spec-side
loop (fire the lowest-index violated invariant, re-encode, restart,
stop at the first valid state), and any normal form it returns is a
valid state. -/
theorem c2_computeNF_first_match (schema : Schema)
    (enumLits : List (String × Int)) (invNames : List String)
    (invExprs : List Node) (repExprs : List (List (Int × Node)))
    (valid : List Bool) (sid : Int)
    (hsch : schema = NewSchema schema.vars)
    (hwf : ∀ v ∈ schema.vars, wfVar v)
    (hvalid : buildValidW schema enumLits invExprs = Except.ok valid)
    (h0 : 0 ≤ sid) (h1 : sid < schema.totalLen) :
    computeNFW schema enumLits invNames invExprs repExprs valid sid =
      specComputeNFW schema enumLits invNames invExprs repExprs valid
        sid ∧
    (∀ res : Int,
      computeNFW schema enumLits invNames invExprs repExprs valid sid =
        Except.ok res →
      valid.getD res.toNat false = true) := by
  have heq := computeNFAux_eq_spec schema enumLits invNames invExprs
    repExprs valid sid hsch hwf hvalid MaxRepairIter sid h0 h1
  refine ⟨heq, ?_⟩
  intro res hres
  rw [computeNFW] at hres
  rw [heq] at hres
  exact specComputeNFAux_ok_valid schema enumLits invNames invExprs
    repExprs valid sid MaxRepairIter sid res hres

/-- Witness for C2 at toyReg, state 0 (invalid, repaired to state 1). -/
theorem c2_computeNF_first_match_witness :
    buildValidW toyCR.schema toyCR.enumLiterals toyCR.invExprs =
      Except.ok [false, true] ∧
    computeNFW toyCR.schema toyCR.enumLiterals ["b_holds"]
        toyCR.invExprs toyCR.repExprs [false, true] 0 =
      specComputeNFW toyCR.schema toyCR.enumLiterals ["b_holds"]
        toyCR.invExprs toyCR.repExprs [false, true] 0 :=
  ⟨by rfl,
   (c2_computeNF_first_match toyCR.schema toyCR.enumLiterals ["b_holds"]
     toyCR.invExprs toyCR.repExprs [false, true] 0 rfl (by decide)
     (by rfl) (by decide) (by decide)).1⟩

/-! ## Claim C1 : the WFC verdict -/

theorem wfcBadAt_false_iff (valid : List Bool) (nf : List Int)
    (sid : Nat) :
    wfcBadAt valid nf sid = false ↔
      (valid.getD (nf.getD sid (-1)).toNat false = true ∧
       (valid.getD sid false = true → nf.getD sid (-1) = (sid : Int))) := by
  simp only [wfcBadAt, Bool.or_eq_false_iff, Bool.and_eq_false_iff,
    Bool.not_eq_false', Bool.not_eq_false, decide_eq_true_eq,
    Bool.not_eq_true]
  constructor
  · rintro ⟨h1, h2⟩
    refine ⟨h1, ?_⟩
    intro hb
    rcases h2 with h2 | h2
    · rw [hb] at h2; exact absurd h2 (by simp)
    · exact h2
  · rintro ⟨h1, h2⟩
    refine ⟨h1, ?_⟩
    by_cases hb : valid.getD sid false = true
    · exact Or.inr (h2 hb)
    · exact Or.inl (by simpa using hb)

/-- C1.  For a compiled registry whose tables were built successfully,
CheckWFC reports PASS exactly when every state's normal form is valid
and every valid state is a fixpoint of NF. -/
theorem c1_wfc_pass_iff (cr : CompiledRegistry) (t : Tables)
    (hbt : BuildTables cr = Except.ok t) :
    (∃ d, CheckWFC cr t = Except.ok (true, d, "")) ↔
      (∀ sid : Nat, sid < cr.schema.totalLen.toNat →
        t.valid.getD (t.nf.getD sid (-1)).toNat false = true ∧
        (t.valid.getD sid false = true →
          t.nf.getD sid (-1) = (sid : Int))) := by
  obtain ⟨hv, hn, hs⟩ := buildTables_ok_parts cr t hbt
  constructor
  · rintro ⟨d, hd⟩
    simp only [CheckWFC, CheckWFCW] at hd
    split at hd
    · split at hd <;>
        · exact absurd hd (by
            intro hcontra
            simp only [Except.ok.injEq, Prod.mk.injEq] at hcontra
            exact absurd hcontra.1 (by simp))
    · rename_i hnone
      intro sid hsid
      rw [← wfcBadAt_false_iff]
      have := List.find?_eq_none.mp hnone sid (List.mem_range.mpr hsid)
      simpa using this
  · intro hprop
    have hnone : (List.range cr.schema.totalLen.toNat).find?
        (wfcBadAt t.valid t.nf) = none := by
      rw [List.find?_eq_none]
      intro sid hsid
      have := (wfcBadAt_false_iff t.valid t.nf sid).mpr
        (hprop sid (List.mem_range.mp hsid))
      simp [this]
    have hall : ∀ sid ∈ List.range cr.schema.totalLen.toNat, ∃ dep,
        repairDepthW cr.schema cr.enumLiterals
          (cr.reg.invariants.map Invariant.name) cr.invExprs cr.repExprs
          t.valid ((sid : Nat) : Int) = Except.ok dep := by
      intro sid hsid
      obtain ⟨x, hx, hcnf⟩ :=
        (buildNFW_spec _ _ _ _ _ _ _ hn).2 sid (List.mem_range.mp hsid)
      exact computeNFAux_ok_repairDepth cr.schema cr.enumLiterals
        (cr.reg.invariants.map Invariant.name) cr.invExprs cr.repExprs
        t.valid ((sid : Nat) : Int) MaxRepairIter ((sid : Nat) : Int) x
        hcnf 0
    obtain ⟨depths, hdepths⟩ := listMapE_ok_of_all _ _ hall
    refine ⟨maxDepthFold depths, ?_⟩
    simp only [CheckWFC, CheckWFCW, hnone, hdepths]

/-- Witness for C1 at toyReg: the toy system passes WFC, and the table
property holds. -/
theorem c1_wfc_pass_iff_witness :
    BuildTables toyCR = Except.ok toyTables ∧
    ((∃ d, CheckWFC toyCR toyTables = Except.ok (true, d, "")) ↔
      (∀ sid : Nat, sid < toyCR.schema.totalLen.toNat →
        toyTables.valid.getD
          (toyTables.nf.getD sid (-1)).toNat false = true ∧
        (toyTables.valid.getD sid false = true →
          toyTables.nf.getD sid (-1) = (sid : Int)))) :=
  ⟨buildTables_toyCR, c1_wfc_pass_iff toyCR toyTables buildTables_toyCR⟩

/-! ## Claim C6 : exceeding the repair cap aborts the build -/

/-- A registry whose repair cannot make progress: the single invariant
requires b, and the repair re-assigns b to itself. -/
def loopReg : Registry :=
  ⟨"loop", [⟨"b", VarType.tbool, [], 0, 0, 2⟩],
   [⟨"b_holds", "b"⟩], [⟨"b_holds", [("b", "b")]⟩], []⟩

/-- The compiled form of loopReg. -/
def loopCR : CompiledRegistry :=
  ⟨loopReg, NewSchema loopReg.vars, [], [Node.evar "b"],
   [[(0, Node.evar "b")]], [], []⟩

theorem compile_loopReg : Compile loopReg = Except.ok loopCR := by rfl

set_option maxRecDepth 100000 in
/-- C6 counterexample.  On loopReg the repair iteration cap is exceeded
at state b=false, and the pipeline aborts with a table-build error
before any WFC verdict: the run does not produce a WFC FAIL report. -/
theorem c6_cap_reported_as_build_error :
    computeNFW loopCR.schema loopCR.enumLiterals ["b_holds"]
        loopCR.invExprs loopCR.repExprs [false, true] 0 =
      Except.error
        "compensation did not terminate within 1000 steps from state {b=false}" ∧
    runVerify loopReg =
      RunOutcome.buildError
        "normal form at state {b=false}: compensation did not terminate within 1000 steps from state {b=false}" :=
  ⟨by rfl, by rfl⟩

/-- C6 as amended.  When normalization of some in-range state exceeds
the repair iteration cap, computeNF returns an error; BuildTables
propagates it, so the pipeline aborts with a table-build error before
the WFC check, producing no WFC verdict at all. -/
theorem c6_cap_aborts_pipeline (reg : Registry) (cr : CompiledRegistry)
    (hc : Compile reg = Except.ok cr)
    (valid : List Bool)
    (hv : buildValidW cr.schema cr.enumLiterals cr.invExprs =
      Except.ok valid)
    (sid : Nat) (hsid : sid < cr.schema.totalLen.toNat) (e : String)
    (hcap : computeNFW cr.schema cr.enumLiterals
        (cr.reg.invariants.map Invariant.name) cr.invExprs cr.repExprs
        valid ((sid : Nat) : Int) = Except.error e) :
    ∃ msg, runVerify reg = RunOutcome.buildError msg := by
  have hnferr : ∀ nf, buildNFW cr.schema cr.enumLiterals
      (cr.reg.invariants.map Invariant.name) cr.invExprs cr.repExprs
      valid ≠ Except.ok nf := by
    intro nf hnf
    obtain ⟨x, hx, hcnf⟩ := (buildNFW_spec _ _ _ _ _ _ _ hnf).2 sid hsid
    rw [hcap] at hcnf
    exact absurd hcnf (by simp)
  cases hbn : buildNFW cr.schema cr.enumLiterals
      (cr.reg.invariants.map Invariant.name) cr.invExprs cr.repExprs
      valid with
  | ok nf => exact absurd hbn (hnferr nf)
  | error msg =>
    refine ⟨msg, ?_⟩
    have hbt : BuildTables cr = Except.error msg := by
      simp only [BuildTables, buildTablesW, hv, hbn]
    simp only [runVerify, hc, hbt]

set_option maxRecDepth 100000 in
/-- Witness for C6 as amended, at loopReg. -/
theorem c6_cap_aborts_pipeline_witness :
    computeNFW loopCR.schema loopCR.enumLiterals
        (loopCR.reg.invariants.map Invariant.name) loopCR.invExprs
        loopCR.repExprs [false, true] ((0 : Nat) : Int) =
      Except.error
        "compensation did not terminate within 1000 steps from state {b=false}" ∧
    (∃ msg, runVerify loopReg = RunOutcome.buildError msg) :=
  ⟨by rfl,
   c6_cap_aborts_pipeline loopReg loopCR compile_loopReg [false, true]
     (by rfl) 0 (by decide)
     "compensation did not terminate within 1000 steps from state {b=false}"
     (by rfl)⟩

/-! ## Claim C3 : the CC1 verdict -/

/-- The CC1 requirement at one state for one ordered event pair, as the
spec words it: if either first step is -1 skip, else if either second
step is -1 skip, else the two compositions agree. -/
def cc1OKAt (step : List (List Int)) (e1 e2 sid : Nat) : Prop :=
  (step.getD e1 []).getD sid (-1) ≠ -1 →
  (step.getD e2 []).getD sid (-1) ≠ -1 →
  (step.getD e2 []).getD ((step.getD e1 []).getD sid (-1)).toNat (-1) ≠ -1 →
  (step.getD e1 []).getD ((step.getD e2 []).getD sid (-1)).toNat (-1) ≠ -1 →
  (step.getD e2 []).getD ((step.getD e1 []).getD sid (-1)).toNat (-1) =
    (step.getD e1 []).getD ((step.getD e2 []).getD sid (-1)).toNat (-1)

theorem cc1ViolAt_false_iff (step : List (List Int)) (e1 e2 sid : Nat) :
    cc1ViolAt step e1 e2 sid = false ↔ cc1OKAt step e1 e2 sid := by
  simp only [cc1ViolAt, cc1OKAt]
  generalize (step.getD e1 []).getD sid (-1) = s1
  generalize (step.getD e2 []).getD sid (-1) = s2
  generalize (step.getD e2 []).getD s1.toNat (-1) = r12
  generalize (step.getD e1 []).getD s2.toNat (-1) = r21
  by_cases h1 : s1 = -1 <;> by_cases h2 : s2 = -1 <;>
    by_cases h3 : r12 = -1 <;> by_cases h4 : r21 = -1 <;>
    simp [h1, h2, h3, h4]

theorem cc1OKAt_symm (step : List (List Int)) (e1 e2 sid : Nat)
    (h : cc1OKAt step e1 e2 sid) : cc1OKAt step e2 e1 sid := by
  intro h1 h2 h3 h4
  exact (h h2 h1 h4 h3).symm

/-- cc2Go never touches the CC1 verdict. -/
theorem cc2Go_cc1Pass (schema : Schema) (events : List Event)
    (step : List (List Int)) (nf : List Int) (l : List Nat)
    (acc : CCResult) :
    (cc2Go schema events step nf l acc).cc1Pass = acc.cc1Pass := by
  induction l generalizing acc with
  | nil => rfl
  | cons ei rest ih =>
    simp only [cc2Go]
    split
    · rfl
    · split
      · exact ih acc
      · rfl

/-- The CC1 pair scan passes iff the accumulator was passing and every
independent pair in the list has no violating state. -/
theorem cc1Go_pass_iff (schema : Schema) (events : List Event)
    (evtExprs : List (List (Int × Node))) (step : List (List Int))
    (nf : List Int) (pairs : List (Nat × Nat)) (acc : CCResult) :
    (cc1Go schema events evtExprs step nf pairs acc).cc1Pass = true ↔
      (acc.cc1Pass = true ∧ ∀ p ∈ pairs,
        isIndependentW (eventWrites evtExprs p.1)
          (eventReads schema (events.getD p.1 ⟨"", "", []⟩))
          (eventWrites evtExprs p.2)
          (eventReads schema (events.getD p.2 ⟨"", "", []⟩)) = true →
        cc1FirstViol step schema.totalLen p.1 p.2 = none) := by
  induction pairs generalizing acc with
  | nil => simp [cc1Go]
  | cons p rest ih =>
    obtain ⟨e1, e2⟩ := p
    simp only [cc1Go, List.forall_mem_cons]
    split
    · rename_i h
      have hacc : acc.cc1Pass = false := by simpa using h
      simp [hacc]
    · rename_i h
      have hacc : acc.cc1Pass = true := by simpa using h
      split
      · rename_i h2
        have hind : isIndependentW (eventWrites evtExprs e1)
            (eventReads schema (events.getD e1 ⟨"", "", []⟩))
            (eventWrites evtExprs e2)
            (eventReads schema (events.getD e2 ⟨"", "", []⟩)) = false := by
          simpa using h2
        simp only [List.getD_eq_getElem?_getD] at hind
        rw [ih]
        simp [hacc, hind]
      · rename_i h2
        have hind : isIndependentW (eventWrites evtExprs e1)
            (eventReads schema (events.getD e1 ⟨"", "", []⟩))
            (eventWrites evtExprs e2)
            (eventReads schema (events.getD e2 ⟨"", "", []⟩)) = true := by
          simpa using h2
        simp only [List.getD_eq_getElem?_getD] at hind
        split
        · rename_i hviol
          rw [ih]
          simp [hacc, hind, hviol]
        · rename_i sid hviol
          simp [hacc, hind, hviol]

/-- Membership in the CC1 pair list. -/
theorem mem_eventPairs (n e1 e2 : Nat) :
    (e1, e2) ∈ eventPairs n ↔ e1 < e2 ∧ e2 < n := by
  simp only [eventPairs, List.mem_flatMap, List.mem_map, List.mem_filter,
    List.mem_range, Prod.mk.injEq]
  constructor
  · rintro ⟨a, ha, b, ⟨hb, hab⟩, heq1, heq2⟩
    subst heq1
    subst heq2
    exact ⟨by simpa using hab, hb⟩
  · rintro ⟨h12, h2⟩
    exact ⟨e1, by omega, e2, ⟨h2, by simpa using h12⟩, rfl, rfl⟩

/-- C3.  CheckCC reports CC1 PASS exactly when, for every independent
pair of distinct events and every state, the spec's skip-or-agree
condition holds on the Step table: states where either event is
disabled, or where either composition hits a disabled intermediate
state, are skipped, and otherwise the two compositions must agree.
Independence is the embedded read/write-set disjointness, and dependent
pairs are never examined by the scan. -/
theorem c3_cc1_pass_iff (cr : CompiledRegistry) (t : Tables) :
    (CheckCC cr t).cc1Pass = true ↔
      (∀ e1 e2 : Nat, e1 < cr.reg.events.length →
        e2 < cr.reg.events.length → e1 ≠ e2 →
        isIndependentW (eventWrites cr.evtExprs e1)
          (eventReads cr.schema (cr.reg.events.getD e1 ⟨"", "", []⟩))
          (eventWrites cr.evtExprs e2)
          (eventReads cr.schema (cr.reg.events.getD e2 ⟨"", "", []⟩)) =
          true →
        ∀ sid : Nat, sid < cr.schema.totalLen.toNat →
          cc1OKAt t.step e1 e2 sid) := by
  have h1 : (CheckCC cr t).cc1Pass =
      (cc2Go cr.schema cr.reg.events t.step t.nf
        (List.range cr.reg.events.length)
        (cc1Go cr.schema cr.reg.events cr.evtExprs t.step t.nf
          (eventPairs cr.reg.events.length) ccInit)).cc1Pass := rfl
  rw [h1, cc2Go_cc1Pass, cc1Go_pass_iff]
  have hinit : ccInit.cc1Pass = true := rfl
  simp only [hinit, true_and]
  have hviolOK : ∀ e1 e2 : Nat,
      cc1FirstViol t.step cr.schema.totalLen e1 e2 = none ↔
      ∀ sid : Nat, sid < cr.schema.totalLen.toNat →
        cc1OKAt t.step e1 e2 sid := by
    intro e1 e2
    rw [cc1FirstViol, List.find?_eq_none]
    constructor
    · intro h sid hsid
      rw [← cc1ViolAt_false_iff]
      simpa using h sid (List.mem_range.mpr hsid)
    · intro h sid hsid
      have := (cc1ViolAt_false_iff t.step e1 e2 sid).mpr
        (h sid (List.mem_range.mp hsid))
      simp [this]
  constructor
  · intro h e1 e2 he1 he2 hne hind sid hsid
    rcases Nat.lt_or_ge e1 e2 with hlt | hge
    · exact (hviolOK e1 e2).mp
        (h (e1, e2) ((mem_eventPairs _ _ _).mpr ⟨hlt, he2⟩) hind) sid hsid
    · have hlt2 : e2 < e1 := by omega
      have hind2 : isIndependentW (eventWrites cr.evtExprs e2)
          (eventReads cr.schema (cr.reg.events.getD e2 ⟨"", "", []⟩))
          (eventWrites cr.evtExprs e1)
          (eventReads cr.schema (cr.reg.events.getD e1 ⟨"", "", []⟩)) =
          true := by
        rw [← hind]
        simp only [isIndependentW]
        rw [Bool.and_comm]
      have := (hviolOK e2 e1).mp
        (h (e2, e1) ((mem_eventPairs _ _ _).mpr ⟨hlt2, he1⟩) hind2)
        sid hsid
      exact cc1OKAt_symm t.step e2 e1 sid this
  · intro h p hp hind
    obtain ⟨e1, e2⟩ := p
    obtain ⟨hlt, h2⟩ := (mem_eventPairs _ _ _).mp hp
    exact (hviolOK e1 e2).mpr
      (fun sid hsid => h e1 e2 (by omega) h2 (by omega) hind sid hsid)

/-! ## Claim C10 : repair target names are positionally inert -/

theorem except_toOption_some {β : Type} (r : Except String β) (v : β) :
    r.toOption = some v ↔ r = Except.ok v := by
  cases r <;> simp [Except.toOption]

/-- The who string of compileAssigns feeds only error messages: the
ok-or-error shape and the ok value are independent of it. -/
theorem compileAssigns_who (who1 who2 : String) (schema : Schema)
    (l : List (String × String)) :
    (compileAssigns who1 schema l).toOption =
      (compileAssigns who2 schema l).toOption := by
  induction l with
  | nil => rfl
  | cons kv rest ih =>
    obtain ⟨varName, exprStr⟩ := kv
    simp only [compileAssigns]
    by_cases hidx : schema.VarIndex varName < 0
    · simp only [if_pos hidx, Except.toOption]
    · simp only [if_neg hidx]
      cases hp : Parse exprStr with
      | error e =>
        simp only [hp]
        simp [Except.toOption]
      | ok node =>
        simp only [hp]
        cases h1 : compileAssigns who1 schema rest with
        | error e1 =>
          cases h2 : compileAssigns who2 schema rest with
          | error e2 =>
            simp only [h1, h2]
            simp [Except.toOption]
          | ok v2 =>
            rw [h1, h2] at ih
            simp [Except.toOption] at ih
        | ok v1 =>
          cases h2 : compileAssigns who2 schema rest with
          | error e2 =>
            rw [h1, h2] at ih
            simp [Except.toOption] at ih
          | ok v2 =>
            rw [h1, h2] at ih
            simp only [Except.toOption, Option.some.injEq] at ih
            subst ih
            simp only [h1, h2]

/-- Renaming the target invariants of a compensation list changes
neither compileRepairs' success nor its compiled value. -/
theorem compileRepairs_rename (schema : Schema) (c1 c2 : List Repair)
    (h : List.Forall₂ (fun r1 r2 => r1.assignments = r2.assignments)
      c1 c2) :
    (compileRepairs schema c1).toOption =
      (compileRepairs schema c2).toOption := by
  induction h with
  | nil => rfl
  | cons hhd htl ih =>
    rename_i r1 r2 l1 l2
    simp only [compileRepairs]
    have hwho := compileAssigns_who ("repair for " ++ r1.invariant)
      ("repair for " ++ r2.invariant) schema r1.assignments
    rw [hhd] at hwho
    rw [hhd]
    cases ha : compileAssigns ("repair for " ++ r1.invariant) schema
        r2.assignments with
    | error e1 =>
      cases hb : compileAssigns ("repair for " ++ r2.invariant) schema
          r2.assignments with
      | error e2 =>
        simp only [ha, hb]
        simp [Except.toOption]
      | ok v2 =>
        rw [ha, hb] at hwho
        simp [Except.toOption] at hwho
    | ok v1 =>
      cases hb : compileAssigns ("repair for " ++ r2.invariant) schema
          r2.assignments with
      | error e2 =>
        rw [ha, hb] at hwho
        simp [Except.toOption] at hwho
      | ok v2 =>
        rw [ha, hb] at hwho
        simp only [Except.toOption, Option.some.injEq] at hwho
        subst hwho
        simp only [ha, hb]
        cases hc : compileRepairs schema l1 with
        | error e1 =>
          cases hd : compileRepairs schema l2 with
          | error e2 =>
            simp only [hc, hd]
            simp [Except.toOption]
          | ok w2 =>
            rw [hc, hd] at ih
            simp [Except.toOption] at ih
        | ok w1 =>
          cases hd : compileRepairs schema l2 with
          | error e2 =>
            rw [hc, hd] at ih
            simp [Except.toOption] at ih
          | ok w2 =>
            rw [hc, hd] at ih
            simp only [Except.toOption, Option.some.injEq] at ih
            subst ih
            simp only [hc, hd]

theorem forall₂_assignments_symm {c1 c2 : List Repair}
    (h : List.Forall₂ (fun r1 r2 => r1.assignments = r2.assignments)
      c1 c2) :
    List.Forall₂ (fun r1 r2 => r1.assignments = r2.assignments) c2 c1 := by
  induction h with
  | nil => exact List.Forall₂.nil
  | cons hhd htl ih => exact List.Forall₂.cons hhd.symm ih

/-- The two directions of Compile under compensation renaming: errors
map to errors and an ok result maps to the same compiled fields with
the renamed registry in the reg slot. -/
theorem compile_rename_ok (reg1 reg2 : Registry)
    (hvars : reg2.vars = reg1.vars)
    (hinv : reg2.invariants = reg1.invariants)
    (hevts : reg2.events = reg1.events)
    (hcomp : List.Forall₂ (fun r1 r2 => r1.assignments = r2.assignments)
      reg1.compensation reg2.compensation) :
    (∀ e1, Compile reg1 = Except.error e1 →
      ∃ e2, Compile reg2 = Except.error e2) ∧
    (∀ cr1, Compile reg1 = Except.ok cr1 →
      Compile reg2 = Except.ok ⟨reg2, cr1.schema, cr1.enumLiterals,
        cr1.invExprs, cr1.repExprs, cr1.evtGuards, cr1.evtExprs⟩) := by
  have hrep := compileRepairs_rename (NewSchema reg1.vars)
    reg1.compensation reg2.compensation hcomp
  simp only [Compile, hvars, hinv, hevts]
  by_cases hceil : MaxStates < (NewSchema reg1.vars).totalLen
  · simp only [if_pos hceil]
    exact ⟨fun e1 h => ⟨_, rfl⟩, fun cr1 h => absurd h (by simp)⟩
  · simp only [if_neg hceil]
    cases hel : BuildEnumLiterals (NewSchema reg1.vars) with
    | error e =>
      simp only [hel]
      exact ⟨fun e1 h => ⟨_, rfl⟩, fun cr1 h => absurd h (by simp)⟩
    | ok el =>
      simp only [hel]
      cases hiv : compileInvariants reg1.invariants with
      | error e =>
        simp only [hiv]
        exact ⟨fun e1 h => ⟨_, rfl⟩, fun cr1 h => absurd h (by simp)⟩
      | ok iv =>
        simp only [hiv]
        cases hr1 : compileRepairs (NewSchema reg1.vars)
            reg1.compensation with
        | error e =>
          cases hr2 : compileRepairs (NewSchema reg1.vars)
              reg2.compensation with
          | error e2 =>
            simp only [hr1, hr2]
            exact ⟨fun e1 h => ⟨_, rfl⟩, fun cr1 h => absurd h (by simp)⟩
          | ok v2 =>
            rw [hr1, hr2] at hrep
            simp [Except.toOption] at hrep
        | ok rp =>
          cases hr2 : compileRepairs (NewSchema reg1.vars)
              reg2.compensation with
          | error e2 =>
            rw [hr1, hr2] at hrep
            simp [Except.toOption] at hrep
          | ok rp2 =>
            rw [hr1, hr2] at hrep
            simp only [Except.toOption, Option.some.injEq] at hrep
            subst hrep
            simp only [hr1, hr2]
            cases hev : compileEvents (NewSchema reg1.vars)
                reg1.events with
            | error e =>
              simp only [hev]
              exact ⟨fun e1 h => ⟨_, rfl⟩, fun cr1 h => absurd h (by simp)⟩
            | ok ge =>
              obtain ⟨gs, exs⟩ := ge
              simp only [hev]
              refine ⟨fun e1 h => absurd h (by simp), fun cr1 h => ?_⟩
              simp only [Except.ok.injEq] at h
              subst h
              rfl

theorem compile_reg_field (reg : Registry) (cr : CompiledRegistry)
    (h : Compile reg = Except.ok cr) : cr.reg = reg := by
  have hsame : List.Forall₂
      (fun r1 r2 => r1.assignments = r2.assignments)
      reg.compensation reg.compensation :=
    List.forall₂_same.mpr (fun x _ => rfl)
  have h2 := (compile_rename_ok reg reg rfl rfl rfl hsame).2 cr h
  have h3 : cr = ⟨reg, cr.schema, cr.enumLiterals, cr.invExprs,
      cr.repExprs, cr.evtGuards, cr.evtExprs⟩ := by
    have := h.symm.trans h2
    simpa using this
  exact congrArg CompiledRegistry.reg h3

/-- C10.  Repairs are bound to invariants purely by position: replacing
the declared target-invariant names of the compensation entries (the
assignment bodies unchanged) changes neither whether Compile succeeds
nor any compiled expression, nor the built Valid/NF/Step tables, nor
the WFC and CC verdicts. -/
theorem c10_repair_names_inert (reg1 reg2 : Registry)
    (hvars : reg2.vars = reg1.vars)
    (hinv : reg2.invariants = reg1.invariants)
    (hevts : reg2.events = reg1.events)
    (hcomp : List.Forall₂ (fun r1 r2 => r1.assignments = r2.assignments)
      reg1.compensation reg2.compensation) :
    ((∃ cr, Compile reg1 = Except.ok cr) ↔
      (∃ cr, Compile reg2 = Except.ok cr)) ∧
    (∀ cr1, Compile reg1 = Except.ok cr1 → ∃ cr2,
      Compile reg2 = Except.ok cr2 ∧
      cr2.schema = cr1.schema ∧ cr2.enumLiterals = cr1.enumLiterals ∧
      cr2.invExprs = cr1.invExprs ∧ cr2.repExprs = cr1.repExprs ∧
      cr2.evtGuards = cr1.evtGuards ∧ cr2.evtExprs = cr1.evtExprs ∧
      BuildTables cr2 = BuildTables cr1 ∧
      (∀ t, CheckWFC cr2 t = CheckWFC cr1 t ∧
        CheckCC cr2 t = CheckCC cr1 t)) := by
  obtain ⟨herr1, hok1⟩ := compile_rename_ok reg1 reg2 hvars hinv hevts
    hcomp
  obtain ⟨herr2, hok2⟩ := compile_rename_ok reg2 reg1 hvars.symm
    hinv.symm hevts.symm (forall₂_assignments_symm hcomp)
  constructor
  · constructor
    · rintro ⟨cr, hcr⟩
      exact ⟨_, hok1 cr hcr⟩
    · rintro ⟨cr, hcr⟩
      exact ⟨_, hok2 cr hcr⟩
  · intro cr1 h
    have hreg1 : cr1.reg = reg1 := compile_reg_field reg1 cr1 h
    refine ⟨⟨reg2, cr1.schema, cr1.enumLiterals, cr1.invExprs,
      cr1.repExprs, cr1.evtGuards, cr1.evtExprs⟩, hok1 cr1 h,
      rfl, rfl, rfl, rfl, rfl, rfl, ?_, ?_⟩
    · have hb2 : BuildTables (⟨reg2, cr1.schema, cr1.enumLiterals,
          cr1.invExprs, cr1.repExprs, cr1.evtGuards, cr1.evtExprs⟩ :
          CompiledRegistry) =
          buildTablesW cr1.schema cr1.enumLiterals
            (reg2.invariants.map Invariant.name) cr1.invExprs
            cr1.repExprs cr1.evtGuards cr1.evtExprs
            reg2.events.length := rfl
      have hb1 : BuildTables cr1 =
          buildTablesW cr1.schema cr1.enumLiterals
            (reg1.invariants.map Invariant.name) cr1.invExprs
            cr1.repExprs cr1.evtGuards cr1.evtExprs
            reg1.events.length := by
        simp only [BuildTables, hreg1]
      rw [hb2, hb1, hinv, hevts]
    · intro t
      constructor
      · have hw2 : CheckWFC (⟨reg2, cr1.schema, cr1.enumLiterals,
            cr1.invExprs, cr1.repExprs, cr1.evtGuards, cr1.evtExprs⟩ :
            CompiledRegistry) t =
            CheckWFCW cr1.schema cr1.enumLiterals
              (reg2.invariants.map Invariant.name) cr1.invExprs
              cr1.repExprs t.valid t.nf := rfl
        have hw1 : CheckWFC cr1 t =
            CheckWFCW cr1.schema cr1.enumLiterals
              (reg1.invariants.map Invariant.name) cr1.invExprs
              cr1.repExprs t.valid t.nf := by
          simp only [CheckWFC, hreg1]
        rw [hw2, hw1, hinv]
      · have hc2 : CheckCC (⟨reg2, cr1.schema, cr1.enumLiterals,
            cr1.invExprs, cr1.repExprs, cr1.evtGuards, cr1.evtExprs⟩ :
            CompiledRegistry) t =
            CheckCCW cr1.schema reg2.events cr1.evtExprs t.step
              t.nf := rfl
        have hc1 : CheckCC cr1 t =
            CheckCCW cr1.schema reg1.events cr1.evtExprs t.step
              t.nf := by
          simp only [CheckCC, hreg1]
        rw [hc2, hc1, hevts]

/-- toyReg with its single compensation entry renamed to an unrelated
string. -/
def toyRegRenamed : Registry :=
  { toyReg with compensation := [⟨"renamed", [("b", "true")]⟩] }

/-- Witness for C10: renaming toyReg's repair target changes nothing
observable. -/
theorem c10_repair_names_inert_witness :
    ((∃ cr, Compile toyReg = Except.ok cr) ↔
      (∃ cr, Compile toyRegRenamed = Except.ok cr)) ∧
    (∀ cr1, Compile toyReg = Except.ok cr1 → ∃ cr2,
      Compile toyRegRenamed = Except.ok cr2 ∧
      cr2.schema = cr1.schema ∧ cr2.enumLiterals = cr1.enumLiterals ∧
      cr2.invExprs = cr1.invExprs ∧ cr2.repExprs = cr1.repExprs ∧
      cr2.evtGuards = cr1.evtGuards ∧ cr2.evtExprs = cr1.evtExprs ∧
      BuildTables cr2 = BuildTables cr1 ∧
      (∀ t, CheckWFC cr2 t = CheckWFC cr1 t ∧
        CheckCC cr2 t = CheckCC cr1 t)) :=
  c10_repair_names_inert toyReg toyRegRenamed rfl rfl rfl
    (List.Forall₂.cons rfl List.Forall₂.nil)

end NCCheck
